import Mathlib

/-!
# A shallow embedding of the FFT engine (`src/fft.h`) and of the tridiagonal solver
(`src/sle_tridiagonal.h`)

The class `FFT` holds a pointer to a buffer of `std::complex<double>` together with
the machine words `count` and `order` (`uint`, 32 bits) and the transform mode.

* The buffer is a `List R` over an arbitrary field `R`; a slot is read with
  `getD _ 0` and written with `List.set`.
* `uint` values are natural numbers; every `uint` operation that can wrap is
  reduced modulo `2 ^ 32` (`u32`).
* The network is generic in the twiddle function so that it can be executed
  over `ℚ`; the source's `rotate` is the complex exponential and is plugged in
  for the theorems about the Fourier transform (real arithmetic is exact, the
  constant `pi` is `Real.pi`).
-/

namespace FFT

/-! ## Machine words -/

/-- Reduction of a natural number to the range of `uint`. -/
def u32 (n : Nat) : Nat := n % 2 ^ 32

/-- The product `k * type` of the `uint` `k` and the `short` `type`: the usual
arithmetic conversions turn `type` into a `uint`, and the product wraps. -/
def mulType (k : Nat) (type : Int) : Nat := (((k : Int) * type) % 2 ^ 32).toNat

/-! ## Data model -/

/-- The transform mode (`enum TYPE_TRANSFORM`). -/
inductive TYPE_TRANSFORM where
  | NORMAL
  | SIN_HALF_FREQ
  | COS_HALF_FREQ
  deriving DecidableEq, Repr

end FFT

/-- The fields of `class FFT`: the buffer, `count`, `order` and the mode. -/
structure FFT (R : Type) where
  data : List R
  count : Nat
  order : Nat
  type_transform : FFT.TYPE_TRANSFORM

namespace FFT

variable {R : Type}

/-! ## `reverseBit` -/

/-- The `while (x != 0)` loop of `reverseBit`, one iteration per unit of fuel:
`res += (x & 1) * (base >>= 1); x >>= 1`. -/
def reverseBitLoop : Nat → Nat → Nat → Nat → Nat
  | 0, _, _, res => res
  | fuel + 1, x, base, res =>
    if x ≠ 0 then
      reverseBitLoop fuel (x >>> 1) (base >>> 1) (u32 (res + (x &&& 1) * (base >>> 1)))
    else res

/-- The function `reverseBit(x)` for an engine of the given `order`: `base = 1 << order`,
`res = 0`, then the loop.  A `uint` has 32 bits, so 32 iterations exhaust `x`. -/
def reverseBit (order x : Nat) : Nat :=
  reverseBitLoop 32 (u32 x) (u32 (1 <<< order)) 0

/-! ## `transform` -/

/-- The exchange `swap(data[i], data[j])`. -/
def swapAt [Zero R] (d : List R) (i j : Nat) : List R :=
  (d.set i (d.getD j 0)).set j (d.getD i 0)

/-- The first loop of `transform`: for `i < count`, swap `data[i]` with
`data[reverseBit(i)]` when `reverseBit(i) >= i`. -/
def bitReversalLoop [Zero R] (order count : Nat) (d : List R) : List R :=
  (List.range count).foldl
    (fun d i =>
      let revBit := reverseBit order i
      if revBit ≥ i then swapAt d i revBit else d) d

/-- The body of the innermost loop of `transform` for block `j` and offset `k`. -/
def butterfly [Ring R] (rot : Nat → Nat → R) (type : Int) (half j k : Nat)
    (d : List R) : List R :=
  let lo := u32 (j * 2 * half + k)
  let hi := u32 (j * 2 * half + half + k)
  let less := d.getD lo 0
  let more := d.getD hi 0
  let d1 := d.set lo (less + rot (mulType k type) (u32 (half * 2)) * more)
  d1.set hi (less - rot (mulType k type) (u32 (half * 2)) * more)

/-- One pass of the outer butterfly loop of `transform` (loop variable `i`). -/
def stage [Ring R] (rot : Nat → Nat → R) (type : Int) (count i : Nat)
    (d : List R) : List R :=
  let half := u32 (1 <<< i)
  let intervals := count >>> (i + 1)
  (List.range intervals).foldl
    (fun d j => (List.range half).foldl (fun d k => butterfly rot type half j k d) d) d

/-- The butterfly loops of `transform`: stages `0 .. order - 1`. -/
def stages [Ring R] (rot : Nat → Nat → R) (type : Int) (count order : Nat)
    (d : List R) : List R :=
  (List.range order).foldl (fun d i => stage rot type count i d) d

/-- The method `transform(type)`: the bit-reversal loop followed by the butterfly stages. -/
def transform [Ring R] (rot : Nat → Nat → R) (type : Int) (s : FFT R) : FFT R :=
  { s with data := stages rot type s.count s.order (bitReversalLoop s.order s.count s.data) }

/-! ## `rotate` -/

/-- The function `rotate(k, n) = exp(-i * 2 * pi * k / n)` on real arguments, in exact
arithmetic (`pi` is `Real.pi`).  At `n = 0` the source divides by zero and its result is
not a number; no butterfly of `transform` calls `rotate` there and no statement below
evaluates it there. -/
noncomputable def rotate (k n : ℝ) : ℂ :=
  Complex.exp (-Complex.I * 2 * Real.pi * k / n)

/-- The call `rotate(k*type, half*2)` as it appears in `transform`: both arguments are
`uint` values converted to `double`. -/
noncomputable def rotateU (a b : Nat) : ℂ := rotate (a : ℝ) (b : ℝ)

/-- The twiddle factor of the butterfly at offset `k` of a stage with the given `half`,
for the direction `type`, exactly as `transform` evaluates it. -/
noncomputable def twiddle (type : Int) (half k : Nat) : ℂ :=
  rotateU (mulType k type) (u32 (half * 2))

/-! ## `transformData` -/

/-- The index `2*count - i - 1` of the mirror loops, evaluated in `uint`. -/
def mirrorIndex (count i : Nat) : Nat := ((2 * (count : Int) - (i : Int) - 1) % 2 ^ 32).toNat

/-- The index `count - 1`, evaluated in `uint`. -/
def countPred (count : Nat) : Nat := (((count : Int) - 1) % 2 ^ 32).toNat

/-- The copy made when `link` is false: `new complexD[len]` (value-initialised to zero)
followed by `memcpy` of the first `count` elements. -/
def allocCopy [Zero R] (len count : Nat) (d : List R) : List R :=
  (List.range len).map (fun i => if i < count then d.getD i 0 else 0)

/-- The odd mirror of `SIN_HALF_FREQ`: `data[2*count - i - 1] = -1.*data[i + 1]` for
`i < count`, then `data[count] = 0.`.  The counter `i` is an `int`; it stays in range as
long as `count < 2 ^ 31`. -/
def sinExtend [Ring R] (count : Nat) (d : List R) : List R :=
  ((List.range count).foldl
    (fun d i => d.set (mirrorIndex count i) (-1 * d.getD (i + 1) 0)) d).set count 0

/-- The even mirror of `COS_HALF_FREQ`: `data[2*count - i - 1] = data[i + 1]` for
`i < count`, then `data[count] = 0.5*(data[count + 1] + data[count - 1])`. -/
def cosExtend [Field R] (count : Nat) (d : List R) : List R :=
  let d1 := (List.range count).foldl
    (fun d i => d.set (mirrorIndex count i) (d.getD (i + 1) 0)) d
  d1.set count (1 / 2 * (d1.getD (u32 (count + 1)) 0 + d1.getD (countPred count) 0))

/-- The method `transformData(link)`: the optional copy, then the extension of the mode. -/
def transformData [Field R] ( link : Bool) (s : FFT R) : FFT R :=
  let d0 :=
    if !link then
      (if s.type_transform = TYPE_TRANSFORM.NORMAL then allocCopy s.count s.count s.data
       else allocCopy (u32 (2 * s.count)) s.count s.data)
    else s.data
  let d1 := if s.type_transform = TYPE_TRANSFORM.SIN_HALF_FREQ then sinExtend s.count d0 else d0
  let d2 := if s.type_transform = TYPE_TRANSFORM.COS_HALF_FREQ then cosExtend s.count d1 else d1
  { s with data := d2 }

/-! ## The public interface -/

/-- The integer part of `std::log2(n)` for the `uint` `n` converted to `double`; `none`
stands for minus infinity, the value of the logarithm at `n = 0`. -/
def log2Floor (n : Nat) : Option Nat :=
  if n = 0 then none else some (Nat.log2 n)

/-- The `uint` stored by `order = std::log2(count - 1) + 1`: a finite sum is truncated;
minus infinity stays minus infinity under `+ 1` and its conversion to `uint` gives `0` in
the compiled constructor. -/
def orderWord (count : Nat) : Nat :=
  match log2Floor (countPred count) with
  | none => 0
  | some l => l + 1

/-- The order computed by the constructor from `count`; every `count` yields a value. -/
def orderOf (count : Nat) : Option Nat := some (orderWord count)

/-- The constructor `FFT(_data, _count, link, _type_transform)`. -/
def new [Field R] (_data : List R) (_count : Nat) ( link : Bool)
    (_type_transform : TYPE_TRANSFORM) : Option (FFT R) :=
  (orderOf _count).map fun order =>
    transformData link
      { data := _data, count := _count, order := order, type_transform := _type_transform }

/-- The statement `count *= 2; order++` guarded by the mode. -/
def enter (s : FFT R) : FFT R :=
  if s.type_transform ≠ TYPE_TRANSFORM.NORMAL then
    { s with count := u32 (s.count * 2), order := u32 (s.order + 1) }
  else s

/-- The statement `count /= 2; order--` guarded by the mode. -/
def leave (s : FFT R) : FFT R :=
  if s.type_transform ≠ TYPE_TRANSFORM.NORMAL then
    { s with count := s.count / 2, order := countPred s.order }
  else s

/-- The method `directTransformation()`. -/
def directTransformation [Ring R] (rot : Nat → Nat → R) (s : FFT R) : FFT R :=
  leave (transform rot 1 (enter s))

/-- The final loop of `inverseTransformation`: `data[i] /= 2.*(double)count` for
`i < count`. -/
def normalize [Field R] (count : Nat) (d : List R) : List R :=
  (List.range count).foldl (fun d i => d.set i (d.getD i 0 / (2 * (count : R)))) d

/-- The method `inverseTransformation()`. -/
def inverseTransformation [Field R] (rot : Nat → Nat → R) (s : FFT R) : FFT R :=
  let s1 := leave (transform rot (-1) (enter s))
  { s1 with data := normalize s1.count s1.data }

/-- The accessor `operator[](index)`: throws `std::out_of_range` when `index > count`,
otherwise returns the reference `data[index]`, modelled by the content of that slot
(`none` when the reference points past the buffer). -/
def index (s : FFT R) (index : Nat) : Except String (Option R) :=
  if index > s.count then Except.error "Index out of range."
  else Except.ok (s.data[index]?)

/-- The assignment `engine[index] = v` through the reference returned by `operator[]`. -/
def assign (s : FFT R) (index : Nat) (v : R) : Except String (FFT R) :=
  if index > s.count then Except.error "Index out of range."
  else Except.ok { s with data := s.data.set index v }

/-- The method `size()`. -/
def size (s : FFT R) : Nat := s.count

/-! ## Specification-side functions -/

/-- The reversal of the low `k` bits of `x`, by recursion on `k`: the lowest bit of `x`
becomes bit `k - 1`. -/
def brev : Nat → Nat → Nat
  | 0, _ => 0
  | k + 1, x => (x % 2) * 2 ^ k + brev k (x / 2)

/-- The transform of the decimated subsequence held by block `j` after `s` stages:
the samples `x (brev c j + n * 2 ^ c)`, `n < 2 ^ s`, against the powers of `ω ^ (2 ^ c)`. -/
def blockDFT [CommRing R] (ω : R) (x : Nat → R) (c s j m : Nat) : R :=
  ∑ n in Finset.range (2 ^ s), x (brev c j + n * 2 ^ c) * ω ^ (2 ^ c * (m * n))

/-! ## `transform` with Option-returning indexing -/

/-- A write `data[i] = v` that fails outside the buffer. -/
def setChecked (d : List R) (i : Nat) (v : R) : Option (List R) :=
  if i < d.length then some (d.set i v) else none

/-- The exchange `swap(data[i], data[j])` with Option-returning indexing. -/
def swapAtChecked (d : List R) (i j : Nat) : Option (List R) := do
  let a ← d[i]?
  let b ← d[j]?
  let d1 ← setChecked d i b
  setChecked d1 j a

/-- The first loop of `transform` with Option-returning indexing. -/
def bitReversalLoopChecked (order count : Nat) (d : List R) : Option (List R) :=
  (List.range count).foldlM
    (fun d i =>
      let revBit := reverseBit order i
      if revBit ≥ i then swapAtChecked d i revBit else some d) d

/-- The body of the innermost loop of `transform` with Option-returning indexing. -/
def butterflyChecked [Ring R] (rot : Nat → Nat → R) (type : Int) (half j k : Nat)
    (d : List R) : Option (List R) := do
  let lo := u32 (j * 2 * half + k)
  let hi := u32 (j * 2 * half + half + k)
  let less ← d[lo]?
  let more ← d[hi]?
  let d1 ← setChecked d lo (less + rot (mulType k type) (u32 (half * 2)) * more)
  setChecked d1 hi (less - rot (mulType k type) (u32 (half * 2)) * more)

/-- One pass of the outer butterfly loop with Option-returning indexing. -/
def stageChecked [Ring R] (rot : Nat → Nat → R) (type : Int) (count i : Nat)
    (d : List R) : Option (List R) :=
  let half := u32 (1 <<< i)
  let intervals := count >>> (i + 1)
  (List.range intervals).foldlM
    (fun d j => (List.range half).foldlM (fun d k => butterflyChecked rot type half j k d) d) d

/-- The method `transform(type)` with Option-returning indexing: `none` as soon as an
index falls outside the buffer. -/
def transformChecked [Ring R] (rot : Nat → Nat → R) (type : Int) (s : FFT R) :
    Option (FFT R) := do
  let d1 ← bitReversalLoopChecked s.order s.count s.data
  let d2 ← (List.range s.order).foldlM (fun d i => stageChecked rot type s.count i d) d1
  some { s with data := d2 }

end FFT

/-! ## The tridiagonal solver (`src/sle_tridiagonal.h`) -/

/-- The fields of `class Tridiagonal` (`src/sle_tridiagonal.h`): the sweep coefficients
`alpha`, `beta`, the result column `x`, and the `uint` words `size`, `trueSize`. -/
structure Tridiagonal (T : Type) where
  alpha : List T
  beta : List T
  x : List T
  size : Nat
  trueSize : Nat

namespace Tridiagonal

variable {T : Type}

/-- The difference `a - b` of two `uint` values, evaluated in `uint`. -/
def usub (a b : Nat) : Nat := (((a : Int) - (b : Int)) % 2 ^ 32).toNat

/-- The body of the forward loop of `solve` for the index `i`: it writes `alpha[i]` and
then `beta[i]`. -/
def sweepStep [Field T] (a b c f : List T) (st : List T × List T) (i : Nat) :
    List T × List T :=
  let alpha := st.1.set i
    (-(b.getD i 0) / (a.getD (i - 1) 0 * st.1.getD (i - 1) 0 + c.getD i 0))
  let beta := st.2.set i
    ((f.getD i 0 - a.getD (i - 1) 0 * st.2.getD (i - 1) 0)
      / (a.getD (i - 1) 0 * alpha.getD (i - 1) 0 + c.getD i 0))
  (alpha, beta)

/-- The body of the backward loop of `solve` for the index `i`:
`x[i-1] = alpha[i-1]*x[i] + beta[i-1]`. -/
def backStep [Field T] (alpha beta x : List T) (i : Nat) : List T :=
  x.set (i - 1) (alpha.getD (i - 1) 0 * x.getD i 0 + beta.getD (i - 1) 0)

/-- The method `solve(a, b, c, f)`: the first row, the forward loop over `i = 1 .. size - 2`
(iteration `j` of the fold is `i = j + 1`), the last unknown, and the backward loop over
`i = size - 1 .. 1`. -/
def solve [Field T] (s : Tridiagonal T) (a b c f : List T) : Tridiagonal T :=
  let alpha0 := s.alpha.set 0 (-(b.getD 0 0) / c.getD 0 0)
  let beta0 := s.beta.set 0 (f.getD 0 0 / c.getD 0 0)
  let last := usub s.size 1
  let st := (List.range (last - 1)).foldl (fun st j => sweepStep a b c f st (j + 1))
    (alpha0, beta0)
  let x0 := s.x.set last
    ((f.getD last 0 - a.getD (usub s.size 2) 0 * st.2.getD (usub s.size 2) 0)
      / (a.getD (usub s.size 2) 0 * st.1.getD (usub s.size 2) 0 + c.getD last 0))
  let x1 := (List.range last).reverse.foldl (fun x j => backStep st.1 st.2 x (j + 1)) x0
  { s with alpha := st.1, beta := st.2, x := x1 }

/-- The constructor `Tridiagonal(_trueSize)`: three arrays of `trueSize` elements (their
initial content is never read by `solve`). -/
def new [Zero T] (_trueSize : Nat) : Tridiagonal T :=
  { alpha := List.replicate _trueSize 0, beta := List.replicate _trueSize 0,
    x := List.replicate _trueSize 0, size := _trueSize, trueSize := _trueSize }

end Tridiagonal

namespace FFT

variable {R : Type}

/-! # Lemmas

## Bit reversal -/
theorem u32_of_lt {n : Nat} (h : n < 2 ^ 32) : u32 n = n := Nat.mod_eq_of_lt h

/-- A power of two that fits a `uint` has an exponent of at most `31`. -/
theorem order_le_of_fits {k : Nat} (h : 2 ^ k < 2 ^ 32) : k ≤ 31 := by
  have := (Nat.pow_lt_pow_iff_right (by norm_num : 1 < 2)).mp h
  omega

theorem brev_lt (k x : Nat) : brev k x < 2 ^ k := by
  induction k generalizing x with
  | zero => simp [brev]
  | succ k ih =>
    have h1 := ih (x / 2)
    have h2 : x % 2 < 2 := Nat.mod_lt _ (by norm_num)
    have h3 : (x % 2) * 2 ^ k ≤ 1 * 2 ^ k := Nat.mul_le_mul_right _ (by omega)
    simp only [brev, pow_succ]
    omega

theorem brev_zero (k : Nat) : brev k 0 = 0 := by
  induction k with
  | zero => rfl
  | succ k ih => simp [brev, ih]

theorem reverseBitLoop_base_zero (fuel x res : Nat) (hres : res < 2 ^ 32) :
    reverseBitLoop fuel x 0 res = res := by
  induction fuel generalizing x with
  | zero => rfl
  | succ fuel ih =>
    simp only [reverseBitLoop]
    split
    · simpa [u32_of_lt hres] using ih (x >>> 1)
    · rfl

theorem reverseBitLoop_eq (fuel : Nat) : ∀ (k x res : Nat), x < 2 ^ fuel →
    res + brev k x < 2 ^ 32 → reverseBitLoop fuel x (2 ^ k) res = res + brev k x := by
  induction fuel with
  | zero =>
    intro k x res hx _
    have : x = 0 := by simpa using hx
    subst this
    simp [reverseBitLoop, brev_zero]
  | succ fuel ih =>
    intro k x res hx hres
    simp only [reverseBitLoop]
    split
    · cases k with
      | zero =>
        have hr : res < 2 ^ 32 := by simpa [brev] using hres
        simp [Nat.shiftRight_eq_div_pow, brev, u32_of_lt hr, reverseBitLoop_base_zero _ _ _ hr]
      | succ k =>
        have hb : (2 ^ (k + 1)) >>> 1 = 2 ^ k := by
          simp [Nat.shiftRight_eq_div_pow, pow_succ]
        have hx2 : x >>> 1 = x / 2 := by simp [Nat.shiftRight_eq_div_pow]
        have hand : x &&& 1 = x % 2 := Nat.and_one_is_mod x
        rw [hb, hx2, hand]
        simp only [brev] at hres
        have hlt : res + x % 2 * 2 ^ k < 2 ^ 32 := by omega
        rw [u32_of_lt hlt, ih k (x / 2) _ (by rw [pow_succ] at hx; omega) (by omega)]
        simp only [brev]
        omega
    · rename_i h
      have : x = 0 := by simpa using h
      subst this
      simp [brev_zero]

theorem reverseBit_eq_brev {k x : Nat} (hk : k ≤ 31) (hx : x < 2 ^ 32) :
    reverseBit k x = brev k x := by
  have hpow : 2 ^ k < 2 ^ 32 := Nat.pow_lt_pow_right (by norm_num) (by omega)
  have hb : brev k x < 2 ^ 32 := lt_trans (brev_lt k x) hpow
  unfold reverseBit
  rw [u32_of_lt hx, Nat.shiftLeft_eq, one_mul, u32_of_lt hpow,
    reverseBitLoop_eq 32 k x 0 hx (by simpa using hb)]
  simp

/-- Moving the top bit of a `(k+1)`-bit number to the bottom of its reversal. -/
theorem brev_top (k : Nat) : ∀ (b y : Nat), b < 2 → y < 2 ^ k →
    brev (k + 1) (b * 2 ^ k + y) = 2 * brev k y + b := by
  induction k with
  | zero =>
    intro b y hb hy
    have : y = 0 := by simpa using hy
    subst this
    simp [brev, Nat.mod_eq_of_lt hb]
  | succ k ih =>
    intro b y hb hy
    have e0 : b * 2 ^ (k + 1) = 2 * (b * 2 ^ k) := by ring
    have e1 : (b * 2 ^ (k + 1) + y) % 2 = y % 2 := by
      rw [e0]; omega
    have e2 : (b * 2 ^ (k + 1) + y) / 2 = b * 2 ^ k + y / 2 := by
      rw [e0]; omega
    have hy2 : y / 2 < 2 ^ k := by rw [pow_succ] at hy; omega
    rw [brev, e1, e2, ih b (y / 2) hb hy2]
    simp only [brev, pow_succ]
    ring

theorem brev_brev (k : Nat) : ∀ x, x < 2 ^ k → brev k (brev k x) = x := by
  induction k with
  | zero => intro x hx; simp at hx; simp [brev, hx]
  | succ k ih =>
    intro x hx
    have hx2 : x / 2 < 2 ^ k := by rw [pow_succ] at hx; omega
    have h2 : x % 2 < 2 := Nat.mod_lt _ (by norm_num)
    show brev (k + 1) ((x % 2) * 2 ^ k + brev k (x / 2)) = x
    rw [brev_top k (x % 2) (brev k (x / 2)) h2 (brev_lt _ _), ih _ hx2]
    omega

theorem brev_testBit (k : Nat) : ∀ x j, j < k →
    (brev k x).testBit j = x.testBit (k - 1 - j) := by
  induction k with
  | zero => intro x j hj; omega
  | succ k ih =>
    intro x j hj
    simp only [brev]
    rw [Nat.mul_comm, Nat.testBit_mul_pow_two_add _ (brev_lt _ _)]
    by_cases hjk : j = k
    · subst hjk
      have h2 : x % 2 < 2 := Nat.mod_lt _ (by norm_num)
      simp [Nat.testBit_zero]
    · have hj2 : j < k := by omega
      rw [if_pos hj2, ih _ _ hj2, Nat.testBit_div_two]
      congr 1
      omega

/-! ## Buffers and the swap loop -/

theorem getD_set [Zero R] (d : List R) (i j : Nat) (v : R) :
    (d.set i v).getD j 0 = if i = j ∧ i < d.length then v else d.getD j 0 := by
  simp only [List.getD_eq_getElem?_getD, List.getElem?_set]
  by_cases h : i = j
  · subst h
    by_cases hi : i < d.length
    · simp [hi]
    · rw [List.getElem?_eq_none (by omega)]
      simp [hi]
  · simp [h]

theorem swapAt_length [Zero R] (d : List R) (i j : Nat) : (swapAt d i j).length = d.length := by
  simp [swapAt]

theorem swapAt_getD [Zero R] (d : List R) {i j : Nat} (hi : i < d.length) (hj : j < d.length)
    (p : Nat) :
    (swapAt d i j).getD p 0 =
      if p = j then d.getD i 0 else if p = i then d.getD j 0 else d.getD p 0 := by
  unfold swapAt
  rw [getD_set, getD_set, List.length_set]
  by_cases h1 : p = j
  · subst h1; simp [hj]
  · by_cases h2 : p = i
    · subst h2; simp [hi, h1, Ne.symm h1]
    · simp [h1, h2, Ne.symm h1, Ne.symm h2]

/-- The swap loop for an arbitrary involution `r` of `[0, N)`, after `n` iterations. -/
theorem swapLoop_spec [Zero R] (r : Nat → Nat) (N : Nat) (hr : ∀ i < N, r i < N)
    (hrr : ∀ i < N, r (r i) = i) (d : List R) (hd : d.length = N) :
    ∀ n ≤ N,
      ((List.range n).foldl (fun d i => if r i ≥ i then swapAt d i (r i) else d) d).length = N ∧
      ∀ p < N, ((List.range n).foldl
          (fun d i => if r i ≥ i then swapAt d i (r i) else d) d).getD p 0 =
        if p < n ∨ r p < n then d.getD (r p) 0 else d.getD p 0 := by
  intro n
  induction n with
  | zero => intro _; simp [hd]
  | succ n ih =>
    intro hn
    obtain ⟨hlen, hval⟩ := ih (by omega)
    rw [List.range_succ, List.foldl_append]
    simp only [List.foldl_cons, List.foldl_nil]
    set e := (List.range n).foldl (fun d i => if r i ≥ i then swapAt d i (r i) else d) d with he
    have hnN : n < N := by omega
    have hrn := hr n hnN
    by_cases hge : r n ≥ n
    · rw [if_pos hge]
      refine ⟨by rw [swapAt_length, hlen], ?_⟩
      intro p hp
      rw [swapAt_getD e (by omega) (by omega)]
      by_cases h1 : p = r n
      · rw [if_pos h1, hval n hnN, if_neg (by omega : ¬ (n < n ∨ r n < n))]
        subst h1
        rw [hrr n hnN, if_pos (by omega)]
      · by_cases h2 : p = n
        · rw [if_neg h1, if_pos h2, hval (r n) hrn, hrr n hnN,
            if_neg (by omega : ¬ (r n < n ∨ n < n))]
          subst h2
          rw [if_pos (by omega)]
        · have h3 : r p ≠ n := by
            intro h; apply h1; rw [← h, hrr p hp]
          rw [if_neg h1, if_neg h2, hval p hp]
          have : (p < n ∨ r p < n) ↔ (p < n + 1 ∨ r p < n + 1) := by omega
          simp only [this]
    · rw [if_neg hge]
      refine ⟨hlen, ?_⟩
      intro p hp
      rw [hval p hp]
      have h3 : r p = n → p < n := by
        intro h
        have := hrr p hp
        rw [h] at this; omega
      have : (p < n ∨ r p < n) ↔ (p < n + 1 ∨ r p < n + 1) := by
        constructor
        · rintro (h | h) <;> omega
        · rintro (h | h)
          · by_cases hpn : p = n
            · subst hpn; right; omega
            · left; omega
          · by_cases hpn : r p = n
            · left; exact h3 hpn
            · right; omega
      simp only [this]

/-! ## One butterfly stage -/

/-- Uniqueness of the block/offset decomposition of an index. -/
theorem block_inj {n a r a' r' : Nat} (hr : r < n) (hr' : r' < n)
    (h : a * n + r = a' * n + r') : a = a' ∧ r = r' := by
  have h1 : (a * n + r) / n = a := by
    rw [Nat.add_comm, Nat.add_mul_div_right _ _ (by omega), Nat.div_eq_of_lt hr, Nat.zero_add]
  have h2 : (a' * n + r') / n = a' := by
    rw [Nat.add_comm, Nat.add_mul_div_right _ _ (by omega), Nat.div_eq_of_lt hr', Nat.zero_add]
  have h3 : a = a' := by rw [← h1, ← h2, h]
  subst h3
  exact ⟨rfl, by omega⟩

theorem block_lt {n M a r : Nat} (ha : a < M) (hr : r < n) : a * n + r < M * n := by
  have : (a + 1) * n ≤ M * n := Nat.mul_le_mul_right _ ha
  have : (a + 1) * n = a * n + n := by ring
  omega

theorem butterfly_length [Ring R] (rot : Nat → Nat → R) (type : Int) (h j t : Nat)
    (d : List R) : (butterfly rot type h j t d).length = d.length := by
  simp [butterfly]

theorem butterfly_getD [Ring R] (rot : Nat → Nat → R) (type : Int) {h j t : Nat}
    (d : List R) (hfit : d.length < 2 ^ 32) (hhi : j * (2 * h) + (h + t) < d.length)
    (hh : 0 < h) (p : Nat) :
    (butterfly rot type h j t d).getD p 0 =
      if p = j * (2 * h) + (h + t) then
        d.getD (j * (2 * h) + t) 0
          - rot (mulType t type) (u32 (h * 2)) * d.getD (j * (2 * h) + (h + t)) 0
      else if p = j * (2 * h) + t then
        d.getD (j * (2 * h) + t) 0
          + rot (mulType t type) (u32 (h * 2)) * d.getD (j * (2 * h) + (h + t)) 0
      else d.getD p 0 := by
  have e1 : j * 2 * h + t = j * (2 * h) + t := by ring
  have e2 : j * 2 * h + h + t = j * (2 * h) + (h + t) := by ring
  unfold butterfly
  simp only []
  rw [e1, e2, u32_of_lt (by omega : j * (2 * h) + t < 2 ^ 32),
    u32_of_lt (by omega : j * (2 * h) + (h + t) < 2 ^ 32), getD_set, getD_set, List.length_set]
  by_cases h1 : p = j * (2 * h) + (h + t)
  · rw [if_pos h1, if_pos ⟨h1.symm, hhi⟩]
  · rw [if_neg h1, if_neg (fun hc => h1 hc.1.symm)]
    by_cases h2 : p = j * (2 * h) + t
    · rw [if_pos h2, if_pos ⟨h2.symm, by omega⟩]
    · rw [if_neg h2, if_neg (fun hc => h2 hc.1.symm)]

/-- The inner loop over the offsets of block `j`, after `t0` iterations. -/
theorem innerLoop_spec [Ring R] (rot : Nat → Nat → R) (type : Int) (h M : Nat) (hh : 0 < h)
    (d : List R) (hd : d.length = M * (2 * h)) (hfit : d.length < 2 ^ 32) (j : Nat) (hj : j < M) :
    ∀ t0 ≤ h,
      ((List.range t0).foldl (fun d k => butterfly rot type h j k d) d).length = d.length ∧
      ∀ j' < M, ∀ t < h,
        (((List.range t0).foldl (fun d k => butterfly rot type h j k d) d).getD
            (j' * (2 * h) + t) 0 =
          if j' = j ∧ t < t0 then
            d.getD (j' * (2 * h) + t) 0
              + rot (mulType t type) (u32 (h * 2)) * d.getD (j' * (2 * h) + (h + t)) 0
          else d.getD (j' * (2 * h) + t) 0) ∧
        (((List.range t0).foldl (fun d k => butterfly rot type h j k d) d).getD
            (j' * (2 * h) + (h + t)) 0 =
          if j' = j ∧ t < t0 then
            d.getD (j' * (2 * h) + t) 0
              - rot (mulType t type) (u32 (h * 2)) * d.getD (j' * (2 * h) + (h + t)) 0
          else d.getD (j' * (2 * h) + (h + t)) 0) := by
  intro t0
  induction t0 with
  | zero => intro _; simp
  | succ t0 ih =>
    intro ht0
    obtain ⟨hlen, hval⟩ := ih (by omega)
    rw [List.range_succ, List.foldl_append]
    simp only [List.foldl_cons, List.foldl_nil]
    set e := (List.range t0).foldl (fun d k => butterfly rot type h j k d) d with he
    refine ⟨by rw [butterfly_length, hlen], ?_⟩
    have hhi : j * (2 * h) + (h + t0) < e.length := by
      rw [hlen, hd]; exact block_lt hj (by omega)
    have hlo0 := (hval j hj t0 (by omega)).1
    have hhi0 := (hval j hj t0 (by omega)).2
    rw [if_neg (by omega)] at hlo0 hhi0
    intro j' hj' t ht
    constructor
    · rw [butterfly_getD rot type e (by omega) hhi hh]
      have hne : j' * (2 * h) + t ≠ j * (2 * h) + (h + t0) := by
        intro hc
        have := block_inj (by omega) (by omega) hc
        omega
      rw [if_neg hne]
      by_cases hc : j' * (2 * h) + t = j * (2 * h) + t0
      · obtain ⟨hj2, ht2⟩ := block_inj (by omega) (by omega) hc
        subst hj2; subst ht2
        rw [if_pos rfl, if_pos ⟨rfl, by omega⟩, hlo0, hhi0]
      · rw [if_neg hc, (hval j' hj' t ht).1]
        have : (j' = j ∧ t < t0) ↔ (j' = j ∧ t < t0 + 1) := by
          constructor
          · rintro ⟨a, b⟩; exact ⟨a, by omega⟩
          · rintro ⟨a, b⟩
            refine ⟨a, ?_⟩
            by_contra hlt
            have : t = t0 := by omega
            apply hc; rw [a, this]
        simp only [this]
    · rw [butterfly_getD rot type e (by omega) hhi hh]
      by_cases hc : j' * (2 * h) + (h + t) = j * (2 * h) + (h + t0)
      · obtain ⟨hj2, ht2⟩ := block_inj (by omega) (by omega) hc
        have ht3 : t = t0 := by omega
        subst hj2; subst ht3
        rw [if_pos rfl, if_pos ⟨rfl, by omega⟩, hlo0, hhi0]
      · have hne : j' * (2 * h) + (h + t) ≠ j * (2 * h) + t0 := by
          intro hc2
          have := block_inj (by omega) (by omega) hc2
          omega
        rw [if_neg hc, if_neg hne, (hval j' hj' t ht).2]
        have : (j' = j ∧ t < t0) ↔ (j' = j ∧ t < t0 + 1) := by
          constructor
          · rintro ⟨a, b⟩; exact ⟨a, by omega⟩
          · rintro ⟨a, b⟩
            refine ⟨a, ?_⟩
            by_contra hlt
            have : t = t0 := by omega
            apply hc; rw [a, this]
        simp only [this]

/-- The loop over the blocks of one stage, after `j0` blocks. -/
theorem outerLoop_spec [Ring R] (rot : Nat → Nat → R) (type : Int) (h M : Nat) (hh : 0 < h)
    (d : List R) (hd : d.length = M * (2 * h)) (hfit : d.length < 2 ^ 32) :
    ∀ j0 ≤ M,
      ((List.range j0).foldl
        (fun d j => (List.range h).foldl (fun d k => butterfly rot type h j k d) d) d).length
          = d.length ∧
      ∀ j' < M, ∀ t < h,
        (((List.range j0).foldl
            (fun d j => (List.range h).foldl (fun d k => butterfly rot type h j k d) d) d).getD
            (j' * (2 * h) + t) 0 =
          if j' < j0 then
            d.getD (j' * (2 * h) + t) 0
              + rot (mulType t type) (u32 (h * 2)) * d.getD (j' * (2 * h) + (h + t)) 0
          else d.getD (j' * (2 * h) + t) 0) ∧
        (((List.range j0).foldl
            (fun d j => (List.range h).foldl (fun d k => butterfly rot type h j k d) d) d).getD
            (j' * (2 * h) + (h + t)) 0 =
          if j' < j0 then
            d.getD (j' * (2 * h) + t) 0
              - rot (mulType t type) (u32 (h * 2)) * d.getD (j' * (2 * h) + (h + t)) 0
          else d.getD (j' * (2 * h) + (h + t)) 0) := by
  intro j0
  induction j0 with
  | zero => intro _; simp
  | succ j0 ih =>
    intro hj0
    obtain ⟨hlen, hval⟩ := ih (by omega)
    rw [List.range_succ, List.foldl_append]
    simp only [List.foldl_cons, List.foldl_nil]
    set e := (List.range j0).foldl
      (fun d j => (List.range h).foldl (fun d k => butterfly rot type h j k d) d) d with he
    obtain ⟨hlen2, hval2⟩ := innerLoop_spec rot type h M hh e (by rw [hlen, hd])
      (by rw [hlen]; exact hfit) j0 (by omega) h le_rfl
    refine ⟨by rw [hlen2, hlen], ?_⟩
    intro j' hj' t ht
    obtain ⟨a1, a2⟩ := hval2 j' hj' t ht
    obtain ⟨b1, b2⟩ := hval j' hj' t ht
    by_cases hc : j' = j0
    · subst hc
      rw [if_pos ⟨rfl, ht⟩] at a1 a2
      rw [if_neg (by omega)] at b1 b2
      rw [a1, a2, b1, b2, if_pos (by omega), if_pos (by omega)]
      exact ⟨rfl, rfl⟩
    · rw [if_neg (fun hx => hc hx.1)] at a1 a2
      rw [a1, a2, b1, b2]
      by_cases hlt : j' < j0
      · rw [if_pos hlt, if_pos hlt, if_pos (by omega), if_pos (by omega)]
        exact ⟨rfl, rfl⟩
      · rw [if_neg hlt, if_neg hlt, if_neg (by omega), if_neg (by omega)]
        exact ⟨rfl, rfl⟩

/-- One stage of the network on a buffer of length `2 ^ (s + c + 1)`: every pair of slots
at distance `2 ^ s` inside a block of size `2 ^ (s + 1)` is replaced by its butterfly. -/
theorem stage_spec [Ring R] (rot : Nat → Nat → R) (type : Int) (s c : Nat)
    (hk : s + c + 1 ≤ 31) (d : List R) (hd : d.length = 2 ^ (s + c + 1)) :
    (stage rot type (2 ^ (s + c + 1)) s d).length = d.length ∧
    ∀ j < 2 ^ c, ∀ t < 2 ^ s,
      ((stage rot type (2 ^ (s + c + 1)) s d).getD (j * (2 * 2 ^ s) + t) 0 =
        d.getD (j * (2 * 2 ^ s) + t) 0
          + rot (mulType t type) (u32 (2 ^ s * 2)) * d.getD (j * (2 * 2 ^ s) + (2 ^ s + t)) 0) ∧
      ((stage rot type (2 ^ (s + c + 1)) s d).getD (j * (2 * 2 ^ s) + (2 ^ s + t)) 0 =
        d.getD (j * (2 * 2 ^ s) + t) 0
          - rot (mulType t type) (u32 (2 ^ s * 2)) * d.getD (j * (2 * 2 ^ s) + (2 ^ s + t)) 0) := by
  have hhalf : u32 (1 <<< s) = 2 ^ s := by
    rw [Nat.shiftLeft_eq, one_mul]
    exact u32_of_lt (Nat.pow_lt_pow_right (by norm_num) (by omega))
  have hint : (2 ^ (s + c + 1)) >>> (s + 1) = 2 ^ c := by
    rw [Nat.shiftRight_eq_div_pow, show s + c + 1 = c + (s + 1) by ring, pow_add,
      Nat.mul_div_cancel _ (by positivity)]
  have hN : (2 : Nat) ^ (s + c + 1) < 2 ^ 32 := Nat.pow_lt_pow_right (by norm_num) (by omega)
  have hlen : d.length = 2 ^ c * (2 * 2 ^ s) := by rw [hd]; ring
  unfold stage
  simp only []
  rw [hhalf, hint]
  obtain ⟨h1, h2⟩ := outerLoop_spec rot type (2 ^ s) (2 ^ c) (by positivity) d hlen
    (by rw [hd]; exact hN) (2 ^ c) le_rfl
  refine ⟨h1, ?_⟩
  intro j hj t ht
  obtain ⟨a1, a2⟩ := h2 j hj t ht
  rw [if_pos hj] at a1 a2
  exact ⟨a1, a2⟩

/-! ## The network as a discrete Fourier transform -/

theorem sum_range_two_mul [AddCommMonoid R] (f : Nat → R) (n : Nat) :
    ∑ i in Finset.range (2 * n), f i = ∑ i in Finset.range n, (f (2 * i) + f (2 * i + 1)) := by
  induction n with
  | zero => simp
  | succ n ih =>
    rw [show 2 * (n + 1) = 2 * n + 1 + 1 by ring, Finset.sum_range_succ, Finset.sum_range_succ,
      ih, Finset.sum_range_succ]
    abel

theorem brev_even (c j : Nat) : brev (c + 1) (2 * j) = brev c j := by
  have h1 : (2 * j) % 2 = 0 := by omega
  have h2 : (2 * j) / 2 = j := by omega
  simp [brev, h1, h2]

theorem brev_odd (c j : Nat) : brev (c + 1) (2 * j + 1) = 2 ^ c + brev c j := by
  have h1 : (2 * j + 1) % 2 = 1 := by omega
  have h2 : (2 * j + 1) / 2 = j := by omega
  simp [brev, h1, h2]

theorem blockDFT_lo [CommRing R] (ω : R) (x : Nat → R) (c s j t : Nat) :
    blockDFT ω x c (s + 1) j t =
      blockDFT ω x (c + 1) s (2 * j) t + ω ^ (t * 2 ^ c) * blockDFT ω x (c + 1) s (2 * j + 1) t := by
  unfold blockDFT
  rw [show 2 ^ (s + 1) = 2 * 2 ^ s by ring, sum_range_two_mul, Finset.mul_sum,
    ← Finset.sum_add_distrib]
  apply Finset.sum_congr rfl
  intro n _
  rw [brev_even, brev_odd]
  have hA : brev c j + 2 * n * 2 ^ c = brev c j + n * 2 ^ (c + 1) := by ring
  have hB : brev c j + (2 * n + 1) * 2 ^ c = 2 ^ c + brev c j + n * 2 ^ (c + 1) := by ring
  have hE1 : 2 ^ c * (t * (2 * n)) = 2 ^ (c + 1) * (t * n) := by ring
  have hE2 : 2 ^ c * (t * (2 * n + 1)) = t * 2 ^ c + 2 ^ (c + 1) * (t * n) := by ring
  rw [hA, hB, hE1, hE2, pow_add ω]
  ring

theorem blockDFT_hi [CommRing R] (ω : R) (x : Nat → R) (c s j t : Nat)
    (hω : ω ^ (2 ^ (s + c)) = -1) :
    blockDFT ω x c (s + 1) j (2 ^ s + t) =
      blockDFT ω x (c + 1) s (2 * j) t - ω ^ (t * 2 ^ c) * blockDFT ω x (c + 1) s (2 * j + 1) t := by
  unfold blockDFT
  rw [show 2 ^ (s + 1) = 2 * 2 ^ s by ring, sum_range_two_mul, Finset.mul_sum,
    ← Finset.sum_sub_distrib]
  apply Finset.sum_congr rfl
  intro n _
  rw [brev_even, brev_odd]
  have hA : brev c j + 2 * n * 2 ^ c = brev c j + n * 2 ^ (c + 1) := by ring
  have hB : brev c j + (2 * n + 1) * 2 ^ c = 2 ^ c + brev c j + n * 2 ^ (c + 1) := by ring
  have hE1 : 2 ^ c * ((2 ^ s + t) * (2 * n)) = 2 ^ (c + 1) * (t * n) + 2 ^ (s + c) * (2 * n) := by
    ring
  have hE2 : 2 ^ c * ((2 ^ s + t) * (2 * n + 1))
      = t * 2 ^ c + 2 ^ (c + 1) * (t * n) + 2 ^ (s + c) * (2 * n + 1) := by ring
  have h1 : ω ^ (2 ^ (s + c) * (2 * n)) = 1 := by
    rw [pow_mul, hω, Even.neg_one_pow ⟨n, by ring⟩]
  have h2 : ω ^ (2 ^ (s + c) * (2 * n + 1)) = -1 := by
    rw [pow_mul, hω, Odd.neg_one_pow ⟨n, rfl⟩]
  rw [hA, hB, hE1, hE2, pow_add ω, pow_add ω, pow_add ω, h1, h2]
  ring

/-- The invariant of the stage loop: after `s` stages of a transform of order `s + c`,
block `j` of size `2 ^ s` holds the transform of the `j`-th decimated subsequence. -/
theorem stages_spec [CommRing R] (rot : Nat → Nat → R) (type : Int) (ω : R) (k : Nat)
    (hk : k ≤ 31) (hω : 1 ≤ k → ω ^ (2 ^ (k - 1)) = -1)
    (hrot : ∀ s < k, ∀ t < 2 ^ s,
      rot (mulType t type) (u32 (2 ^ s * 2)) = ω ^ (t * 2 ^ (k - s - 1)))
    (d : List R) (hd : d.length = 2 ^ k) (x : Nat → R)
    (h0 : ∀ j < 2 ^ k, d.getD j 0 = x (brev k j)) :
    ∀ s c, s + c = k →
      ((List.range s).foldl (fun d i => stage rot type (2 ^ k) i d) d).length = 2 ^ k ∧
      ∀ j < 2 ^ c, ∀ m < 2 ^ s,
        ((List.range s).foldl (fun d i => stage rot type (2 ^ k) i d) d).getD (j * 2 ^ s + m) 0
          = blockDFT ω x c s j m := by
  intro s
  induction s with
  | zero =>
    intro c hc
    refine ⟨by simpa using hd, ?_⟩
    intro j hj m hm
    have hm0 : m = 0 := by simpa using hm
    subst hm0
    have hck : c = k := by omega
    subst hck
    simp only [List.range_zero, List.foldl_nil, pow_zero, mul_one, add_zero]
    rw [h0 j hj]
    simp [blockDFT]
  | succ s ih =>
    intro c hc
    obtain ⟨hlen, hval⟩ := ih (c + 1) (by omega)
    rw [List.range_succ, List.foldl_append]
    simp only [List.foldl_cons, List.foldl_nil]
    set e := (List.range s).foldl (fun d i => stage rot type (2 ^ k) i d) d with he
    have hk2 : k = s + c + 1 := by omega
    have hst := stage_spec rot type s c (by omega) e (by rw [hlen, hk2])
    rw [← hk2] at hst
    obtain ⟨hl2, hv2⟩ := hst
    refine ⟨by rw [hl2, hlen], ?_⟩
    have hw : ∀ t < 2 ^ s, rot (mulType t type) (u32 (2 ^ s * 2)) = ω ^ (t * 2 ^ c) := by
      intro t ht
      rw [hrot s (by omega) t ht, show k - s - 1 = c by omega]
    have hω2 : ω ^ (2 ^ (s + c)) = -1 := by
      have := hω (by omega)
      rwa [show k - 1 = s + c by omega] at this
    intro j hj m hm
    have e1 : ∀ t, j * (2 * 2 ^ s) + t = (2 * j) * 2 ^ s + t := by intro t; ring
    have e2 : ∀ t, j * (2 * 2 ^ s) + (2 ^ s + t) = (2 * j + 1) * 2 ^ s + t := by intro t; ring
    have hj0 : 2 * j < 2 ^ (c + 1) := by rw [pow_succ]; omega
    have hj1 : 2 * j + 1 < 2 ^ (c + 1) := by rw [pow_succ]; omega
    by_cases hlt : m < 2 ^ s
    · have := (hv2 j hj m hlt).1
      rw [show j * 2 ^ (s + 1) + m = j * (2 * 2 ^ s) + m by ring, this, e1, e2,
        hval _ hj0 m hlt, hval _ hj1 m hlt, hw m hlt, blockDFT_lo]
    · obtain ⟨t, rfl⟩ : ∃ t, m = 2 ^ s + t := ⟨m - 2 ^ s, by omega⟩
      have ht : t < 2 ^ s := by rw [pow_succ] at hm; omega
      have := (hv2 j hj t ht).2
      rw [show j * 2 ^ (s + 1) + (2 ^ s + t) = j * (2 * 2 ^ s) + (2 ^ s + t) by ring, this, e1, e2,
        hval _ hj0 t ht, hval _ hj1 t ht, hw t ht, blockDFT_hi _ _ _ _ _ _ hω2]

/-- The network computes the discrete Fourier transform for any twiddle function that
yields the powers of a root `ω` of `-1`. -/
theorem transform_spec [CommRing R] (rot : Nat → Nat → R) (type : Int) (ω : R) (k : Nat)
    (hk : k ≤ 31) (hω : 1 ≤ k → ω ^ (2 ^ (k - 1)) = -1)
    (hrot : ∀ s < k, ∀ t < 2 ^ s,
      rot (mulType t type) (u32 (2 ^ s * 2)) = ω ^ (t * 2 ^ (k - s - 1)))
    (s : FFT R) (hc : s.count = 2 ^ k) (ho : s.order = k) (hd : s.data.length = 2 ^ k) :
    (transform rot type s).data.length = 2 ^ k ∧
    (transform rot type s).count = s.count ∧ (transform rot type s).order = s.order ∧
    (transform rot type s).type_transform = s.type_transform ∧
    ∀ m < 2 ^ k, (transform rot type s).data.getD m 0
      = ∑ n in Finset.range (2 ^ k), s.data.getD n 0 * ω ^ (m * n) := by
  have hN : (2 : Nat) ^ k < 2 ^ 32 := Nat.pow_lt_pow_right (by norm_num) (by omega)
  have hr : ∀ i < 2 ^ k, reverseBit k i = brev k i := fun i hi =>
    reverseBit_eq_brev hk (by omega)
  have hswap := swapLoop_spec (reverseBit k) (2 ^ k)
    (fun i hi => by rw [hr i hi]; exact brev_lt k i)
    (fun i hi => by rw [hr i hi, hr _ (brev_lt k i)]; exact brev_brev k i hi)
    s.data hd (2 ^ k) le_rfl
  obtain ⟨hl1, hv1⟩ := hswap
  have hst := stages_spec rot type ω k hk hω hrot
    (bitReversalLoop k (2 ^ k) s.data) hl1 (fun i => s.data.getD i 0)
    (fun j hj => by
      have := hv1 j hj
      rw [if_pos (Or.inl hj), hr j hj] at this
      exact this) k 0 (by omega)
  obtain ⟨hl2, hv2⟩ := hst
  refine ⟨?_, rfl, rfl, rfl, ?_⟩
  · simp only [transform, stages, hc, ho]
    exact hl2
  · intro m hm
    have := hv2 0 (by norm_num) m hm
    simp only [transform, stages, hc, ho]
    rw [Nat.zero_mul, Nat.zero_add] at this
    rw [this]
    simp [blockDFT, brev]

/-! ## Twiddle factors -/

theorem mulType_one {t : Nat} (ht : t < 2 ^ 32) : mulType t 1 = t := by
  unfold mulType
  rw [mul_one]
  omega

theorem mulType_neg_one (t : Nat) (ht : t < 2 ^ 32) :
    mulType t (-1) = (2 ^ 32 - t) % 2 ^ 32 := by
  unfold mulType
  omega

theorem u32_two_pow_mul_two {s : Nat} (hs : s ≤ 30) : u32 (2 ^ s * 2) = 2 ^ (s + 1) := by
  rw [← pow_succ]
  exact u32_of_lt (Nat.pow_lt_pow_right (by norm_num) (by omega))

/-- The forward twiddle of stage `s` is `e^(-2πi·t/2^(s+1))`. -/
theorem twiddle_forward {s t : Nat} (hs : s ≤ 30) (ht : t < 2 ^ s) :
    twiddle 1 (2 ^ s) t = Complex.exp (-(2 * Real.pi * Complex.I * t / 2 ^ (s + 1))) := by
  have ht' : t < 2 ^ 32 :=
    lt_trans ht (Nat.pow_lt_pow_right (by norm_num) (by omega))
  unfold twiddle rotateU rotate
  rw [mulType_one ht', u32_two_pow_mul_two hs]
  congr 1
  push_cast
  ring

/-- The inverse twiddle of stage `s` is `e^(+2πi·t/2^(s+1))`. -/
theorem twiddle_inverse {s t : Nat} (hs : s ≤ 30) (ht : t < 2 ^ s) :
    twiddle (-1) (2 ^ s) t = Complex.exp (2 * Real.pi * Complex.I * t / 2 ^ (s + 1)) := by
  have ht' : t < 2 ^ 32 :=
    lt_trans ht (Nat.pow_lt_pow_right (by norm_num) (by omega))
  unfold twiddle rotateU rotate
  rw [mulType_neg_one t ht', u32_two_pow_mul_two hs]
  rcases Nat.eq_zero_or_pos t with h0 | hpos
  · subst h0
    simp
  · rw [Nat.mod_eq_of_lt (by omega)]
    obtain ⟨a, ha⟩ : ∃ a, a + (s + 1) = 32 := ⟨31 - s, by omega⟩
    have hpow : (4294967296 : ℂ) = 2 ^ a * 2 ^ (s + 1) := by rw [← pow_add, ha]; norm_num
    have hne : (2 : ℂ) ^ (s + 1) ≠ 0 := pow_ne_zero _ two_ne_zero
    have harg : -Complex.I * 2 * (Real.pi : ℂ) * (((2 ^ 32 - t : ℕ) : ℝ) : ℂ)
          / (((2 ^ (s + 1) : ℕ) : ℝ) : ℂ)
        = 2 * Real.pi * Complex.I * t / 2 ^ (s + 1)
          + ((-(2 ^ a : ℕ) : ℤ) : ℂ) * (2 * Real.pi * Complex.I) := by
      rw [Nat.cast_sub (by omega)]
      push_cast
      rw [hpow]
      field_simp
      ring
    rw [harg, Complex.exp_add, Complex.exp_int_mul_two_pi_mul_I, mul_one]

/-- The value of `rotate(t·(+1), 2·half)` for `half = 2 ^ s`, `2·half ≤ 2 ^ 32`. -/
theorem rotateU_forward {s t : Nat} (hs : s ≤ 31) (ht : t < 2 ^ s) :
    rotateU (mulType t 1) (2 * 2 ^ s)
      = Complex.exp (-(2 * Real.pi * Complex.I * t / (2 * 2 ^ s))) := by
  have ht' : t < 2 ^ 32 :=
    lt_trans ht (Nat.pow_lt_pow_right (by norm_num) (by omega))
  unfold rotateU rotate
  rw [mulType_one ht']
  congr 1
  push_cast
  ring

/-- The value of `rotate(t·(-1), 2·half)` for `half = 2 ^ s`, `2·half ≤ 2 ^ 32`, with the
product wrapped to `uint`. -/
theorem rotateU_inverse {s t : Nat} (hs : s ≤ 31) (ht : t < 2 ^ s) :
    rotateU (mulType t (-1)) (2 * 2 ^ s)
      = Complex.exp (2 * Real.pi * Complex.I * t / (2 * 2 ^ s)) := by
  have ht' : t < 2 ^ 32 :=
    lt_trans ht (Nat.pow_lt_pow_right (by norm_num) (by omega))
  unfold rotateU rotate
  rw [mulType_neg_one t ht']
  rcases Nat.eq_zero_or_pos t with h0 | hpos
  · subst h0
    simp
  · rw [Nat.mod_eq_of_lt (by omega)]
    obtain ⟨a, ha⟩ : ∃ a, a + (s + 1) = 32 := ⟨31 - s, by omega⟩
    have hpow : (4294967296 : ℂ) = 2 ^ a * (2 * 2 ^ s) := by
      rw [← pow_succ', ← pow_add, ha]; norm_num
    have hne : (2 : ℂ) * 2 ^ s ≠ 0 := mul_ne_zero two_ne_zero (pow_ne_zero _ two_ne_zero)
    have harg : -Complex.I * 2 * (Real.pi : ℂ) * (((2 ^ 32 - t : ℕ) : ℝ) : ℂ)
          / (((2 * 2 ^ s : ℕ) : ℝ) : ℂ)
        = 2 * Real.pi * Complex.I * t / (2 * 2 ^ s)
          + ((-(2 ^ a : ℕ) : ℤ) : ℂ) * (2 * Real.pi * Complex.I) := by
      rw [Nat.cast_sub (by omega)]
      push_cast
      rw [hpow]
      field_simp
      ring
    rw [harg, Complex.exp_add, Complex.exp_int_mul_two_pi_mul_I, mul_one]

/-- A stage that executes a butterfly has `i ≤ 30`: a block index below `count >> (i + 1)`
exists only when `2 ^ (i + 1) ≤ count < 2 ^ 32`. -/
theorem stage_le_of_block {count i j : Nat} (hfit : count < 2 ^ 32)
    (hj : j < count >>> (i + 1)) : i ≤ 30 := by
  rw [Nat.shiftRight_eq_div_pow] at hj
  have hle : 2 ^ (i + 1) ≤ count := by
    by_contra hlt
    rw [Nat.div_eq_of_lt (by omega)] at hj
    omega
  have : 2 ^ (i + 1) < 2 ^ 32 := by omega
  have := (Nat.pow_lt_pow_iff_right (by norm_num : 1 < 2)).mp this
  omega

/-! ## Roots of unity and the entry points -/

theorem exp_neg_pi_mul_I : Complex.exp (-(Real.pi * Complex.I)) = -1 := by
  rw [Complex.exp_neg, Complex.exp_pi_mul_I]
  norm_num

/-- The forward root `e^(-2πi/2^k)` is a `2^(k-1)`-th root of `-1`. -/
theorem omega_forward_half (k : Nat) (hk : 1 ≤ k) :
    Complex.exp (-(2 * Real.pi * Complex.I / 2 ^ k)) ^ (2 ^ (k - 1)) = -1 := by
  obtain ⟨j, rfl⟩ : ∃ j, k = j + 1 := ⟨k - 1, by omega⟩
  rw [← Complex.exp_nat_mul, ← exp_neg_pi_mul_I]
  congr 1
  have hne : (2 : ℂ) ^ j ≠ 0 := pow_ne_zero _ two_ne_zero
  rw [Nat.add_sub_cancel]
  push_cast
  rw [pow_succ]
  field_simp
  ring

theorem omega_inverse_half (k : Nat) (hk : 1 ≤ k) :
    Complex.exp (2 * Real.pi * Complex.I / 2 ^ k) ^ (2 ^ (k - 1)) = -1 := by
  obtain ⟨j, rfl⟩ : ∃ j, k = j + 1 := ⟨k - 1, by omega⟩
  rw [← Complex.exp_nat_mul, ← Complex.exp_pi_mul_I]
  congr 1
  have hne : (2 : ℂ) ^ j ≠ 0 := pow_ne_zero _ two_ne_zero
  rw [Nat.add_sub_cancel]
  push_cast
  rw [pow_succ]
  field_simp
  ring

theorem rot_forward (k : Nat) (hk : k ≤ 31) : ∀ s < k, ∀ t < 2 ^ s,
    rotateU (mulType t 1) (u32 (2 ^ s * 2))
      = Complex.exp (-(2 * Real.pi * Complex.I / 2 ^ k)) ^ (t * 2 ^ (k - s - 1)) := by
  intro s hs t ht
  have h := twiddle_forward (by omega : s ≤ 30) ht
  unfold twiddle at h
  rw [h, ← Complex.exp_nat_mul]
  congr 1
  obtain ⟨c, rfl⟩ : ∃ c, k = s + 1 + c := ⟨k - s - 1, by omega⟩
  have h1 : (2 : ℂ) ^ (s + 1) ≠ 0 := pow_ne_zero _ two_ne_zero
  have h2 : (2 : ℂ) ^ c ≠ 0 := pow_ne_zero _ two_ne_zero
  rw [show s + 1 + c - s - 1 = c by omega]
  push_cast
  rw [pow_add]
  field_simp
  ring

theorem rot_inverse (k : Nat) (hk : k ≤ 31) : ∀ s < k, ∀ t < 2 ^ s,
    rotateU (mulType t (-1)) (u32 (2 ^ s * 2))
      = Complex.exp (2 * Real.pi * Complex.I / 2 ^ k) ^ (t * 2 ^ (k - s - 1)) := by
  intro s hs t ht
  have h := twiddle_inverse (by omega : s ≤ 30) ht
  unfold twiddle at h
  rw [h, ← Complex.exp_nat_mul]
  congr 1
  obtain ⟨c, rfl⟩ : ∃ c, k = s + 1 + c := ⟨k - s - 1, by omega⟩
  have h1 : (2 : ℂ) ^ (s + 1) ≠ 0 := pow_ne_zero _ two_ne_zero
  have h2 : (2 : ℂ) ^ c ≠ 0 := pow_ne_zero _ two_ne_zero
  rw [show s + 1 + c - s - 1 = c by omega]
  push_cast
  rw [pow_add]
  field_simp
  ring

theorem getElem?_of_getD [Zero R] {d : List R} {m : Nat} {v : R} (hm : m < d.length)
    (h : d.getD m 0 = v) : d[m]? = some v := by
  rw [List.getD_eq_getElem?_getD, List.getElem?_eq_getElem hm] at h
  rw [List.getElem?_eq_getElem hm]
  simpa using h

theorem enter_normal (s : FFT R) (h : s.type_transform = TYPE_TRANSFORM.NORMAL) :
    enter s = s := by
  simp [enter, h]

theorem leave_normal (s : FFT R) (h : s.type_transform = TYPE_TRANSFORM.NORMAL) :
    leave s = s := by
  simp [leave, h]

/-- The normalisation loop divides each of the first `count` slots once. -/
theorem normalize_spec [Field R] (N : Nat) (d : List R) :
    ∀ n, ((List.range n).foldl (fun d i => d.set i (d.getD i 0 / (2 * (N : R)))) d).length
        = d.length ∧
      ∀ p, ((List.range n).foldl (fun d i => d.set i (d.getD i 0 / (2 * (N : R)))) d).getD p 0
        = if p < n then d.getD p 0 / (2 * (N : R)) else d.getD p 0 := by
  intro n
  induction n with
  | zero => simp
  | succ n ih =>
    obtain ⟨hlen, hval⟩ := ih
    rw [List.range_succ, List.foldl_append]
    simp only [List.foldl_cons, List.foldl_nil]
    refine ⟨by rw [List.length_set, hlen], ?_⟩
    intro p
    rw [getD_set, hval n, if_neg (by omega : ¬ n < n), hval p, hlen]
    by_cases hp : n = p
    · subst hp
      by_cases hl : n < d.length
      · rw [if_pos ⟨rfl, hl⟩, if_pos (by omega)]
      · rw [if_neg (fun hc => hl hc.2), if_neg (by omega), if_pos (by omega)]
        rw [List.getD_eq_default _ _ (by omega)]
        simp
    · rw [if_neg (fun hc => hp hc.1)]
      have : p < n ↔ p < n + 1 := by omega
      simp only [this]

/-! ## The mirror extensions and the reordering loop -/

theorem mirrorIndex_eq {N i : Nat} (hi : i < N) (hfit : 2 * N < 2 ^ 32) :
    mirrorIndex N i = 2 * N - i - 1 := by
  unfold mirrorIndex
  omega

theorem countPred_eq {N : Nat} (h1 : 1 ≤ N) (hfit : N < 2 ^ 32) : countPred N = N - 1 := by
  unfold countPred
  omega

/-- The mirror loop of `transformData` for an arbitrary map `f` of the copied value, after
`n` iterations: the top `n` slots hold the images of the slots `1 .. n`. -/
theorem mirrorLoop_spec [Zero R] (f : R → R) (N : Nat) (hfit : 2 * N < 2 ^ 32)
    (d : List R) (hd : d.length = 2 * N) :
    ∀ n ≤ N,
      ((List.range n).foldl (fun d i => d.set (mirrorIndex N i) (f (d.getD (i + 1) 0))) d).length
        = 2 * N ∧
      ∀ p, ((List.range n).foldl
          (fun d i => d.set (mirrorIndex N i) (f (d.getD (i + 1) 0))) d).getD p 0 =
        if 2 * N - n ≤ p ∧ p < 2 * N then f (d.getD (2 * N - p) 0) else d.getD p 0 := by
  intro n
  induction n with
  | zero =>
    intro _
    refine ⟨by simpa using hd, ?_⟩
    intro p
    rw [if_neg (by omega)]
    simp
  | succ n ih =>
    intro hn
    obtain ⟨hlen, hval⟩ := ih (by omega)
    rw [List.range_succ, List.foldl_append]
    simp only [List.foldl_cons, List.foldl_nil]
    rw [mirrorIndex_eq (by omega : n < N) hfit]
    refine ⟨by rw [List.length_set, hlen], ?_⟩
    intro p
    rw [getD_set, hlen, hval (n + 1), if_neg (by omega : ¬ (2 * N - n ≤ n + 1 ∧ n + 1 < 2 * N)),
      hval p]
    by_cases hp : 2 * N - n - 1 = p
    · rw [if_pos ⟨hp, by omega⟩, if_pos (by omega)]
      congr 2
      omega
    · rw [if_neg (fun hc => hp hc.1)]
      have : (2 * N - n ≤ p ∧ p < 2 * N) ↔ (2 * N - (n + 1) ≤ p ∧ p < 2 * N) := by omega
      simp only [this]

theorem sinExtend_getD [Ring R] (N : Nat) (hN : 1 ≤ N) (hfit : 2 * N < 2 ^ 32) (d : List R)
    (hd : d.length = 2 * N) :
    (sinExtend N d).length = 2 * N ∧
    ∀ p, (sinExtend N d).getD p 0 =
      if p = N then 0
      else if N < p ∧ p < 2 * N then -1 * d.getD (2 * N - p) 0 else d.getD p 0 := by
  obtain ⟨hlen, hval⟩ := mirrorLoop_spec (fun v : R => -1 * v) N hfit d hd N le_rfl
  unfold sinExtend
  refine ⟨by rw [List.length_set, hlen], ?_⟩
  intro p
  rw [getD_set, hlen, hval p]
  split_ifs <;> first | rfl | (exfalso; omega)

theorem cosExtend_getD [Field R] (N : Nat) (hN : 2 ≤ N) (hfit : 2 * N < 2 ^ 32) (d : List R)
    (hd : d.length = 2 * N) :
    (cosExtend N d).length = 2 * N ∧
    ∀ p, (cosExtend N d).getD p 0 =
      if p = N then 1 / 2 * (d.getD (N - 1) 0 + d.getD (N - 1) 0)
      else if N < p ∧ p < 2 * N then d.getD (2 * N - p) 0 else d.getD p 0 := by
  obtain ⟨hlen, hval⟩ := mirrorLoop_spec (fun v : R => v) N hfit d hd N le_rfl
  unfold cosExtend
  simp only []
  refine ⟨by rw [List.length_set, hlen], ?_⟩
  intro p
  rw [getD_set, hlen, hval p, hval, hval, u32_of_lt (by omega : N + 1 < 2 ^ 32),
    countPred_eq (by omega) (by omega), show 2 * N - (N + 1) = N - 1 by omega]
  split_ifs <;> first | rfl | (exfalso; omega)

/-- Two buffers of the same length with the same slots are equal. -/
theorem ext_getD [Zero R] {a b : List R} (hl : a.length = b.length)
    (h : ∀ p < a.length, a.getD p 0 = b.getD p 0) : a = b := by
  apply List.ext_getElem hl
  intro n h1 h2
  have := h n h1
  rwa [List.getD_eq_getElem _ _ h1, List.getD_eq_getElem _ _ h2] at this

theorem bitReversalLoop_spec [Zero R] (k : Nat) (hk : k ≤ 31) (d : List R)
    (hd : d.length = 2 ^ k) :
    (bitReversalLoop k (2 ^ k) d).length = 2 ^ k ∧
    ∀ p < 2 ^ k, (bitReversalLoop k (2 ^ k) d).getD p 0 = d.getD (reverseBit k p) 0 := by
  have hN : (2 : Nat) ^ k < 2 ^ 32 := Nat.pow_lt_pow_right (by norm_num) (by omega)
  have hr : ∀ i < 2 ^ k, reverseBit k i = brev k i := fun i hi =>
    reverseBit_eq_brev hk (by omega)
  obtain ⟨hl1, hv1⟩ := swapLoop_spec (reverseBit k) (2 ^ k)
    (fun i hi => by rw [hr i hi]; exact brev_lt k i)
    (fun i hi => by rw [hr i hi, hr _ (brev_lt k i)]; exact brev_brev k i hi)
    d hd (2 ^ k) le_rfl
  refine ⟨hl1, ?_⟩
  intro p hp
  have := hv1 p hp
  rwa [if_pos (Or.inl hp)] at this

/-! ## The transforms over the complex numbers -/

/-- The forward `transform(+1)` on a buffer of length `2 ^ k` with `count = 2 ^ k`, `order = k`. -/
theorem transform_forward_dft (k : Nat) (hk : k ≤ 31) (s : FFT ℂ) (hc : s.count = 2 ^ k)
    (ho : s.order = k) (hd : s.data.length = 2 ^ k) :
    (transform rotateU 1 s).data.length = 2 ^ k ∧
    ∀ m : Nat, m < 2 ^ k → (transform rotateU 1 s).data.getD m 0 =
      ∑ n in Finset.range (2 ^ k),
        s.data.getD n 0 * Complex.exp (-(2 * Real.pi * Complex.I * m * n / 2 ^ k)) := by
  obtain ⟨hlen, -, -, -, hval⟩ := transform_spec rotateU 1
    (Complex.exp (-(2 * Real.pi * Complex.I / 2 ^ k))) k hk (omega_forward_half k)
    (rot_forward k hk) s hc ho hd
  refine ⟨hlen, ?_⟩
  intro m hm
  rw [hval m hm]
  apply Finset.sum_congr rfl
  intro n _
  rw [← Complex.exp_nat_mul]
  congr 2
  push_cast
  ring

/-- The inverse `transform(-1)` on a buffer of length `2 ^ k` with `count = 2 ^ k`, `order = k`. -/
theorem transform_inverse_dft (k : Nat) (hk : k ≤ 31) (s : FFT ℂ) (hc : s.count = 2 ^ k)
    (ho : s.order = k) (hd : s.data.length = 2 ^ k) :
    (transform rotateU (-1) s).data.length = 2 ^ k ∧
    ∀ m : Nat, m < 2 ^ k → (transform rotateU (-1) s).data.getD m 0 =
      ∑ n in Finset.range (2 ^ k),
        s.data.getD n 0 * Complex.exp (2 * Real.pi * Complex.I * m * n / 2 ^ k) := by
  obtain ⟨hlen, -, -, -, hval⟩ := transform_spec rotateU (-1)
    (Complex.exp (2 * Real.pi * Complex.I / 2 ^ k)) k hk (omega_inverse_half k)
    (rot_inverse k hk) s hc ho hd
  refine ⟨hlen, ?_⟩
  intro m hm
  rw [hval m hm]
  apply Finset.sum_congr rfl
  intro n _
  rw [← Complex.exp_nat_mul]
  congr 2
  push_cast
  ring

theorem normalize_getD [Field R] (N : Nat) (d : List R) :
    (normalize N d).length = d.length ∧
    ∀ p, (normalize N d).getD p 0 = if p < N then d.getD p 0 / (2 * (N : R)) else d.getD p 0 :=
  normalize_spec N d N

/-- The state on which `transform` runs in a half-frequency mode. -/
theorem enter_half (k : Nat) (hk : k ≤ 30) (s : FFT R)
    (hmode : s.type_transform ≠ TYPE_TRANSFORM.NORMAL) (hc : s.count = 2 ^ k)
    (ho : s.order = k) :
    enter s = { s with count := 2 ^ (k + 1), order := k + 1 } := by
  have h1 : u32 (2 ^ k * 2) = 2 ^ (k + 1) := by
    rw [← pow_succ]
    exact u32_of_lt (Nat.pow_lt_pow_right (by norm_num) (by omega))
  have h2 : u32 (k + 1) = k + 1 := u32_of_lt (by omega)
  simp [enter, hmode, hc, ho, h1, h2]

theorem leave_half (k : Nat) (hk : k ≤ 30) (s : FFT R)
    (hmode : s.type_transform ≠ TYPE_TRANSFORM.NORMAL) (hc : s.count = 2 ^ (k + 1))
    (ho : s.order = k + 1) :
    leave s = { s with count := 2 ^ k, order := k } := by
  have h1 : 2 ^ (k + 1) / 2 = 2 ^ k := by rw [pow_succ]; omega
  have h2 : countPred (k + 1) = k := by unfold countPred; omega
  simp [leave, hmode, hc, ho, h1, h2]

/-- In a half-frequency mode `directTransformation` transforms the `2·count` slots of the
buffer as they stand. -/
theorem directTransformation_half_spec (k : Nat) (hk : k ≤ 30) (s : FFT ℂ)
    (hmode : s.type_transform ≠ TYPE_TRANSFORM.NORMAL) (hc : s.count = 2 ^ k)
    (ho : s.order = k) (hd : s.data.length = 2 ^ (k + 1)) :
    (directTransformation rotateU s).count = 2 ^ k ∧
    (directTransformation rotateU s).order = k ∧
    (directTransformation rotateU s).data.length = 2 ^ (k + 1) ∧
    ∀ m : Nat, m < 2 ^ (k + 1) → (directTransformation rotateU s).data.getD m 0 =
      ∑ n in Finset.range (2 ^ (k + 1)),
        s.data.getD n 0 * Complex.exp (-(2 * Real.pi * Complex.I * m * n / 2 ^ (k + 1))) := by
  obtain ⟨hlen, hval⟩ := transform_forward_dft (k + 1) (by omega)
    { s with count := 2 ^ (k + 1), order := k + 1 } rfl rfl hd
  unfold directTransformation
  rw [enter_half k hk s hmode hc ho,
    leave_half k hk (transform rotateU 1 { s with count := 2 ^ (k + 1), order := k + 1 })
      hmode rfl rfl]
  exact ⟨rfl, rfl, hlen, hval⟩

/-- In a half-frequency mode `inverseTransformation` transforms the `2·count` slots of the
buffer as they stand and divides the first `count` of them by `2·count`. -/
theorem inverseTransformation_half_spec (k : Nat) (hk : k ≤ 30) (s : FFT ℂ)
    (hmode : s.type_transform ≠ TYPE_TRANSFORM.NORMAL) (hc : s.count = 2 ^ k)
    (ho : s.order = k) (hd : s.data.length = 2 ^ (k + 1)) :
    (inverseTransformation rotateU s).count = 2 ^ k ∧
    (inverseTransformation rotateU s).order = k ∧
    (inverseTransformation rotateU s).data.length = 2 ^ (k + 1) ∧
    ∀ m : Nat, m < 2 ^ (k + 1) → (inverseTransformation rotateU s).data.getD m 0 =
      (if m < 2 ^ k then 1 / (2 * 2 ^ k) else 1) *
      ∑ n in Finset.range (2 ^ (k + 1)),
        s.data.getD n 0 * Complex.exp (2 * Real.pi * Complex.I * m * n / 2 ^ (k + 1)) := by
  obtain ⟨hlen, hval⟩ := transform_inverse_dft (k + 1) (by omega)
    { s with count := 2 ^ (k + 1), order := k + 1 } rfl rfl hd
  unfold inverseTransformation
  rw [enter_half k hk s hmode hc ho,
    leave_half k hk (transform rotateU (-1) { s with count := 2 ^ (k + 1), order := k + 1 })
      hmode rfl rfl]
  simp only []
  obtain ⟨hl2, hv2⟩ := normalize_getD (R := ℂ) (2 ^ k)
    (transform rotateU (-1) { s with count := 2 ^ (k + 1), order := k + 1 }).data
  refine ⟨trivial, trivial, by rw [hl2, hlen], ?_⟩
  intro m hm
  rw [hv2 m, hval m hm]
  split_ifs
  · push_cast
    rw [div_eq_mul_one_div, mul_comm]
  · rw [one_mul]

/-! ## Fourier inversion -/

/-- A non-trivial `N`-th root of unity `e^(2πi(m-n)/N)` with `m ≠ n` below `N`. -/
theorem exp_diff_ne_one {N m n : Nat} (hm : m < N) (hn : n < N) (hmn : n ≠ m) :
    Complex.exp (2 * Real.pi * Complex.I * ((m : ℂ) - n) / N) ≠ 1 := by
  intro h
  rw [Complex.exp_eq_one_iff] at h
  obtain ⟨j, hj⟩ := h
  have hN : (N : ℂ) ≠ 0 := by
    have : N ≠ 0 := by omega
    exact_mod_cast this
  have hpi : (2 * Real.pi * Complex.I : ℂ) ≠ 0 := Complex.two_pi_I_ne_zero
  have h2 : ((m : ℂ) - n) = j * N := by
    field_simp at hj
    have h3 : (2 * Real.pi * Complex.I : ℂ) * ((m : ℂ) - n) = (2 * Real.pi * Complex.I) * (j * N) := by
      linear_combination hj
    exact mul_left_cancel₀ hpi h3
  have h4 : ((m : ℤ) - n) = j * N := by exact_mod_cast h2
  have hjz : j = 0 := by
    by_contra hne
    rcases lt_or_gt_of_ne hne with hneg | hpos
    · have : j * (N : ℤ) ≤ -1 * N := by
        apply mul_le_mul_of_nonneg_right (by omega) (by omega)
      omega
    · have : 1 * (N : ℤ) ≤ j * N := by
        apply mul_le_mul_of_nonneg_right (by omega) (by omega)
      omega
  rw [hjz] at h4
  omega

/-- Orthogonality of the characters of `ZMod N`. -/
theorem sum_exp_diff {N m n : Nat} (hm : m < N) (hn : n < N) :
    ∑ p in Finset.range N, Complex.exp (2 * Real.pi * Complex.I * ((m : ℂ) - n) / N) ^ p
      = if n = m then (N : ℂ) else 0 := by
  have hN : (N : ℂ) ≠ 0 := by
    have : N ≠ 0 := by omega
    exact_mod_cast this
  by_cases h : n = m
  · subst h
    simp
  · rw [if_neg h, geom_sum_eq (exp_diff_ne_one hm hn h)]
    have : Complex.exp (2 * Real.pi * Complex.I * ((m : ℂ) - n) / N) ^ N = 1 := by
      rw [← Complex.exp_nat_mul, Complex.exp_eq_one_iff]
      refine ⟨(m : ℤ) - n, ?_⟩
      push_cast
      field_simp
      ring
    rw [this, sub_self, zero_div]

/-- Fourier inversion: the unnormalised inverse transform of the forward transform of `x`
is `N · x`. -/
theorem dft_inversion (N : Nat) (x : Nat → ℂ) {m : Nat} (hm : m < N) :
    ∑ p in Finset.range N,
        (∑ n in Finset.range N, x n * Complex.exp (-(2 * Real.pi * Complex.I * p * n / N)))
          * Complex.exp (2 * Real.pi * Complex.I * m * p / N)
      = N * x m := by
  have hN : (N : ℂ) ≠ 0 := by
    have : N ≠ 0 := by omega
    exact_mod_cast this
  simp_rw [Finset.sum_mul]
  rw [Finset.sum_comm]
  have hinner : ∀ n ∈ Finset.range N,
      ∑ p in Finset.range N, x n * Complex.exp (-(2 * Real.pi * Complex.I * p * n / N))
          * Complex.exp (2 * Real.pi * Complex.I * m * p / N)
        = x n * (if n = m then (N : ℂ) else 0) := by
    intro n hn
    rw [← sum_exp_diff hm (Finset.mem_range.mp hn), Finset.mul_sum]
    apply Finset.sum_congr rfl
    intro p _
    rw [mul_assoc, ← Complex.exp_add, ← Complex.exp_nat_mul]
    congr 2
    field_simp
    ring
  rw [Finset.sum_congr rfl hinner, Finset.sum_eq_single m]
  · rw [if_pos rfl, mul_comm]
  · intro b _ hb
    rw [if_neg hb, mul_zero]
  · intro h
    exact absurd (Finset.mem_range.mpr hm) h

/-! ## NORMAL mode -/

theorem directTransformation_normal (s : FFT ℂ)
    (hmode : s.type_transform = TYPE_TRANSFORM.NORMAL) :
    directTransformation rotateU s = transform rotateU 1 s := by
  unfold directTransformation
  rw [enter_normal s hmode, leave_normal _ (by simpa [transform] using hmode)]

theorem inverseTransformation_normal_spec (k : Nat) (hk : k ≤ 31) (s : FFT ℂ)
    (hmode : s.type_transform = TYPE_TRANSFORM.NORMAL) (hc : s.count = 2 ^ k)
    (ho : s.order = k) (hd : s.data.length = 2 ^ k) :
    (inverseTransformation rotateU s).data.length = 2 ^ k ∧
    ∀ m : Nat, m < 2 ^ k → (inverseTransformation rotateU s).data.getD m 0 =
      1 / (2 * 2 ^ k) * ∑ n in Finset.range (2 ^ k),
        s.data.getD n 0 * Complex.exp (2 * Real.pi * Complex.I * m * n / 2 ^ k) := by
  obtain ⟨hlen, hval⟩ := transform_inverse_dft k hk s hc ho hd
  have hleave : leave (transform rotateU (-1) (enter s)) = transform rotateU (-1) s := by
    rw [enter_normal s hmode, leave_normal _ (by simpa [transform] using hmode)]
  have hcnt : (transform rotateU (-1) s).count = 2 ^ k := hc
  obtain ⟨hl2, hv2⟩ := normalize_getD (R := ℂ) (2 ^ k) (transform rotateU (-1) s).data
  have hdata : (inverseTransformation rotateU s).data
      = normalize (2 ^ k) (transform rotateU (-1) s).data := by
    unfold inverseTransformation
    simp only [hleave, hcnt]
  rw [hdata]
  refine ⟨by rw [hl2, hlen], ?_⟩
  intro m hm
  rw [hv2 m, if_pos hm, hval m hm]
  push_cast
  rw [div_eq_mul_one_div, mul_comm]

/-- In NORMAL mode the inverse of the forward transform returns half of every sample. -/
theorem roundtrip_normal_spec (k : Nat) (hk : k ≤ 31) (s : FFT ℂ)
    (hmode : s.type_transform = TYPE_TRANSFORM.NORMAL) (hc : s.count = 2 ^ k)
    (ho : s.order = k) (hd : s.data.length = 2 ^ k) :
    (inverseTransformation rotateU (directTransformation rotateU s)).data.length = 2 ^ k ∧
    ∀ m : Nat, m < 2 ^ k →
      (inverseTransformation rotateU (directTransformation rotateU s)).data.getD m 0
        = s.data.getD m 0 / 2 := by
  obtain ⟨hlen, hval⟩ := transform_forward_dft k hk s hc ho hd
  rw [directTransformation_normal s hmode]
  obtain ⟨hl2, hv2⟩ := inverseTransformation_normal_spec k hk (transform rotateU 1 s)
    hmode hc ho hlen
  refine ⟨hl2, ?_⟩
  intro m hm
  rw [hv2 m hm]
  have hinv := dft_inversion (2 ^ k) (fun n => s.data.getD n 0) hm
  push_cast at hinv
  have hsum : ∑ n in Finset.range (2 ^ k), (transform rotateU 1 s).data.getD n 0
        * Complex.exp (2 * Real.pi * Complex.I * m * n / 2 ^ k)
      = 2 ^ k * s.data.getD m 0 := by
    rw [← hinv]
    apply Finset.sum_congr rfl
    intro p hp
    rw [hval p (Finset.mem_range.mp hp)]
  rw [hsum]
  have hne : (2 : ℂ) ^ k ≠ 0 := pow_ne_zero _ two_ne_zero
  field_simp
  ring

/-! ## Impulse, linearity and Parseval -/

/-- The slots of the unit impulse `[1, 0, ..., 0]`. -/
theorem impulse_getD (n p : Nat) :
    ((1 : ℂ) :: List.replicate n 0).getD p 0 = if p = 0 then 1 else 0 := by
  cases p with
  | zero => simp
  | succ p =>
    simp only [List.getD_cons_succ, Nat.succ_ne_zero, if_false]
    rw [List.getD_eq_getElem?_getD, List.getElem?_replicate]
    split <;> simp

/-- The slots of a linear combination of two buffers of the same length. -/
theorem zipWith_getD (a b : ℂ) (x y : List ℂ) (hxy : x.length = y.length) (p : Nat) :
    (List.zipWith (fun u v => a * u + b * v) x y).getD p 0
      = a * x.getD p 0 + b * y.getD p 0 := by
  by_cases hp : p < x.length
  · have hp2 : p < y.length := by omega
    have hp3 : p < (List.zipWith (fun u v => a * u + b * v) x y).length := by
      simp [List.length_zipWith]; omega
    rw [List.getD_eq_getElem _ _ hp3, List.getD_eq_getElem _ _ hp, List.getD_eq_getElem _ _ hp2,
      List.getElem_zipWith]
  · have hp3 : (List.zipWith (fun u v => a * u + b * v) x y).length ≤ p := by
      simp [List.length_zipWith]; omega
    rw [List.getD_eq_default _ _ hp3, List.getD_eq_default _ _ (by omega),
      List.getD_eq_default _ _ (by omega)]
    simp

theorem zipWith_length_eq (a b : ℂ) (x y : List ℂ) (hxy : x.length = y.length) :
    (List.zipWith (fun u v => a * u + b * v) x y).length = x.length := by
  simp [List.length_zipWith, hxy]

/-- A sum of the shape of the discrete Fourier transform is linear in the samples. -/
theorem dft_sum_linear (N : Nat) (a b : ℂ) (x y z : Nat → ℂ) (w : Nat → ℂ)
    (hz : ∀ n < N, z n = a * x n + b * y n) :
    ∑ n in Finset.range N, z n * w n
      = a * ∑ n in Finset.range N, x n * w n + b * ∑ n in Finset.range N, y n * w n := by
  rw [Finset.mul_sum, Finset.mul_sum, ← Finset.sum_add_distrib]
  apply Finset.sum_congr rfl
  intro n hn
  rw [hz n (Finset.mem_range.mp hn)]
  ring

/-- Linearity of `transform` in either direction, slot by slot. -/
theorem transform_linear_spec (k : Nat) (hk : k ≤ 31) (mode : TYPE_TRANSFORM) (a b : ℂ)
    (x y : List ℂ) (hx : x.length = 2 ^ k) (hy : y.length = 2 ^ k) (m : Nat) (hm : m < 2 ^ k) :
    ((transform rotateU 1
        ⟨List.zipWith (fun u v => a * u + b * v) x y, 2 ^ k, k, mode⟩).data.length = 2 ^ k ∧
      (transform rotateU 1
        ⟨List.zipWith (fun u v => a * u + b * v) x y, 2 ^ k, k, mode⟩).data.getD m 0
      = a * (transform rotateU 1 ⟨x, 2 ^ k, k, mode⟩).data.getD m 0
        + b * (transform rotateU 1 ⟨y, 2 ^ k, k, mode⟩).data.getD m 0) ∧
    ((transform rotateU (-1)
        ⟨List.zipWith (fun u v => a * u + b * v) x y, 2 ^ k, k, mode⟩).data.length = 2 ^ k ∧
      (transform rotateU (-1)
        ⟨List.zipWith (fun u v => a * u + b * v) x y, 2 ^ k, k, mode⟩).data.getD m 0
      = a * (transform rotateU (-1) ⟨x, 2 ^ k, k, mode⟩).data.getD m 0
        + b * (transform rotateU (-1) ⟨y, 2 ^ k, k, mode⟩).data.getD m 0) := by
  have hz : (List.zipWith (fun u v => a * u + b * v) x y).length = 2 ^ k := by
    rw [zipWith_length_eq a b x y (by rw [hx, hy]), hx]
  obtain ⟨lz, vz⟩ := transform_forward_dft k hk
    ⟨List.zipWith (fun u v => a * u + b * v) x y, 2 ^ k, k, mode⟩ rfl rfl hz
  obtain ⟨-, vx⟩ := transform_forward_dft k hk ⟨x, 2 ^ k, k, mode⟩ rfl rfl hx
  obtain ⟨-, vy⟩ := transform_forward_dft k hk ⟨y, 2 ^ k, k, mode⟩ rfl rfl hy
  obtain ⟨lz', vz'⟩ := transform_inverse_dft k hk
    ⟨List.zipWith (fun u v => a * u + b * v) x y, 2 ^ k, k, mode⟩ rfl rfl hz
  obtain ⟨-, vx'⟩ := transform_inverse_dft k hk ⟨x, 2 ^ k, k, mode⟩ rfl rfl hx
  obtain ⟨-, vy'⟩ := transform_inverse_dft k hk ⟨y, 2 ^ k, k, mode⟩ rfl rfl hy
  refine ⟨⟨lz, ?_⟩, ⟨lz', ?_⟩⟩
  · rw [vz m hm, vx m hm, vy m hm]
    exact dft_sum_linear _ a b _ _ _ _ (fun n _ => zipWith_getD a b x y (by rw [hx, hy]) n)
  · rw [vz' m hm, vx' m hm, vy' m hm]
    exact dft_sum_linear _ a b _ _ _ _ (fun n _ => zipWith_getD a b x y (by rw [hx, hy]) n)

theorem conj_exp_neg (m n N : Nat) :
    (starRingEnd ℂ) (Complex.exp (-(2 * Real.pi * Complex.I * m * n / N)))
      = Complex.exp (2 * Real.pi * Complex.I * n * m / N) := by
  rw [← Complex.exp_conj]
  congr 1
  simp [Complex.conj_ofReal, Complex.conj_I, map_ofNat]
  ring

/-- Parseval's identity for the unnormalised transform of length `N`. -/
theorem dft_parseval (N : Nat) (x : Nat → ℂ) :
    ∑ m in Finset.range N, Complex.normSq
        (∑ n in Finset.range N, x n * Complex.exp (-(2 * Real.pi * Complex.I * m * n / N)))
      = N * ∑ n in Finset.range N, Complex.normSq (x n) := by
  apply Complex.ofReal_injective
  push_cast
  simp_rw [← Complex.mul_conj]
  have h1 : ∀ m ∈ Finset.range N,
      (∑ n in Finset.range N, x n * Complex.exp (-(2 * Real.pi * Complex.I * m * n / N)))
        * (starRingEnd ℂ)
          (∑ n in Finset.range N, x n * Complex.exp (-(2 * Real.pi * Complex.I * m * n / N)))
      = ∑ n in Finset.range N, (starRingEnd ℂ) (x n) *
          ((∑ p in Finset.range N, x p * Complex.exp (-(2 * Real.pi * Complex.I * m * p / N)))
            * Complex.exp (2 * Real.pi * Complex.I * n * m / N)) := by
    intro m _
    rw [map_sum, Finset.mul_sum]
    apply Finset.sum_congr rfl
    intro n _
    rw [map_mul, conj_exp_neg]
    ring
  rw [Finset.sum_congr rfl h1, Finset.sum_comm, Finset.mul_sum]
  apply Finset.sum_congr rfl
  intro n hn
  rw [← Finset.mul_sum, dft_inversion N x (Finset.mem_range.mp hn)]
  ring

/-! ## The constructor order, the half-frequency round trip and the swap count -/

/-- The order computed by the constructor for `2 ≤ count ≤ 2 ^ 31`. -/
theorem orderOf_spec {count : Nat} (h2 : 2 ≤ count) (hmax : count ≤ 2 ^ 31) :
    orderOf count = some (Nat.log2 (count - 1) + 1) ∧
    count ≤ 2 ^ (Nat.log2 (count - 1) + 1) ∧
    ∀ j, count ≤ 2 ^ j → Nat.log2 (count - 1) + 1 ≤ j := by
  have hp : countPred count = count - 1 := countPred_eq (by omega) (by omega)
  have hne : count - 1 ≠ 0 := by omega
  refine ⟨?_, ?_, ?_⟩
  · unfold orderOf orderWord log2Floor
    rw [hp, if_neg hne]
  · have := @Nat.lt_log2_self (count - 1)
    omega
  · intro j hj
    have : (count - 1).log2 < j := (Nat.log2_lt hne).mpr (by omega)
    omega

theorem directTransformation_mode [Ring R] (rot : Nat → Nat → R) (s : FFT R) :
    (directTransformation rot s).type_transform = s.type_transform := by
  by_cases h : s.type_transform = TYPE_TRANSFORM.NORMAL
  · simp [directTransformation, leave, enter, transform, h]
  · simp [directTransformation, leave, enter, transform, h]

/-- In a half-frequency mode the inverse of the forward transform restores the first
`count` slots and leaves the upper `count` slots multiplied by `2·count`. -/
theorem roundtrip_half_spec (k : Nat) (hk : k ≤ 30) (s : FFT ℂ)
    (hmode : s.type_transform ≠ TYPE_TRANSFORM.NORMAL) (hc : s.count = 2 ^ k)
    (ho : s.order = k) (hd : s.data.length = 2 ^ (k + 1)) :
    (inverseTransformation rotateU (directTransformation rotateU s)).data.length
      = 2 ^ (k + 1) ∧
    ∀ m : Nat, m < 2 ^ (k + 1) →
      (inverseTransformation rotateU (directTransformation rotateU s)).data.getD m 0
        = if m < 2 ^ k then s.data.getD m 0 else 2 * 2 ^ k * s.data.getD m 0 := by
  obtain ⟨c1, o1, l1, v1⟩ := directTransformation_half_spec k hk s hmode hc ho hd
  have hmode1 : (directTransformation rotateU s).type_transform ≠ TYPE_TRANSFORM.NORMAL := by
    rw [directTransformation_mode]; exact hmode
  obtain ⟨-, -, l2, v2⟩ := inverseTransformation_half_spec k hk
    (directTransformation rotateU s) hmode1 c1 o1 l1
  refine ⟨l2, ?_⟩
  intro m hm
  rw [v2 m hm]
  have hinv := dft_inversion (2 ^ (k + 1)) (fun n => s.data.getD n 0) hm
  push_cast at hinv
  have hsum : ∑ n in Finset.range (2 ^ (k + 1)),
        (directTransformation rotateU s).data.getD n 0
          * Complex.exp (2 * Real.pi * Complex.I * m * n / 2 ^ (k + 1))
      = 2 ^ (k + 1) * s.data.getD m 0 := by
    rw [← hinv]
    apply Finset.sum_congr rfl
    intro p hp
    rw [v1 p (Finset.mem_range.mp hp)]
  rw [hsum]
  have hne : (2 : ℂ) ^ k ≠ 0 := pow_ne_zero _ two_ne_zero
  split_ifs
  · rw [pow_succ]
    field_simp
    ring
  · rw [pow_succ]
    ring

/-- The iterations of the reordering loop that swap the pair `{i, r i}` of an involution
`r` are the single iteration `min i (r i)`. -/
theorem swap_once (r : Nat → Nat) (N : Nat) (hr : ∀ i < N, r i < N)
    (hrr : ∀ i < N, r (r i) = i) {i : Nat} (hi : i < N) :
    ((Finset.range N).filter (fun j => r j ≥ j ∧ (j = i ∨ j = r i))).card = 1 := by
  rw [Finset.card_eq_one]
  refine ⟨min i (r i), ?_⟩
  ext j
  simp only [Finset.mem_filter, Finset.mem_range, Finset.mem_singleton]
  have h1 := hr i hi
  have h2 := hrr i hi
  constructor
  · rintro ⟨_, hge, rfl | rfl⟩
    · omega
    · rw [h2] at hge; omega
  · intro hj
    by_cases hle : i ≤ r i
    · have : j = i := by omega
      subst this
      exact ⟨hi, hle, Or.inl rfl⟩
    · have : j = r i := by omega
      subst this
      refine ⟨h1, ?_, Or.inr rfl⟩
      rw [h2]; omega

/-! ## Checked indexing -/

/-- A monadic fold whose steps all succeed on states satisfying `P` is the pure fold. -/
theorem foldlM_eq_some {α β : Type} (P : β → Prop) (f : β → α → β) (g : β → α → Option β) :
    ∀ (l : List α) (b : β), P b →
      (∀ b a, P b → a ∈ l → g b a = some (f b a) ∧ P (f b a)) →
      l.foldlM g b = some (l.foldl f b) ∧ P (l.foldl f b) := by
  intro l
  induction l with
  | nil => intro b hb _; exact ⟨rfl, hb⟩
  | cons a l ih =>
    intro b hb h
    obtain ⟨h1, h2⟩ := h b a hb (List.mem_cons_self a l)
    rw [List.foldlM_cons, h1, List.foldl_cons]
    exact ih (f b a) h2 (fun b' a' hb' ha' => h b' a' hb' (List.mem_cons_of_mem a ha'))

theorem getElem?_eq_some_getD [Zero R] (d : List R) {i : Nat} (hi : i < d.length) :
    d[i]? = some (d.getD i 0) := by
  rw [List.getElem?_eq_getElem hi, List.getD_eq_getElem _ _ hi]

theorem swapAtChecked_eq [Zero R] (d : List R) {i j : Nat} (hi : i < d.length)
    (hj : j < d.length) : swapAtChecked d i j = some (swapAt d i j) := by
  unfold swapAtChecked swapAt setChecked
  rw [getElem?_eq_some_getD d hi, getElem?_eq_some_getD d hj]
  simp [hi, hj]

theorem butterflyChecked_eq [Ring R] (rot : Nat → Nat → R) (type : Int) (half j k : Nat)
    (d : List R) (hlo : u32 (j * 2 * half + k) < d.length)
    (hhi : u32 (j * 2 * half + half + k) < d.length) :
    butterflyChecked rot type half j k d = some (butterfly rot type half j k d) := by
  unfold butterflyChecked butterfly setChecked
  simp only []
  rw [getElem?_eq_some_getD d hlo, getElem?_eq_some_getD d hhi]
  simp [hlo, hhi]

theorem bitReversalLoopChecked_eq [Zero R] (k : Nat) (hk : k ≤ 31) (d : List R)
    (hd : d.length = 2 ^ k) :
    bitReversalLoopChecked k (2 ^ k) d = some (bitReversalLoop k (2 ^ k) d) := by
  have hN : (2 : Nat) ^ k < 2 ^ 32 := Nat.pow_lt_pow_right (by norm_num) (by omega)
  unfold bitReversalLoopChecked bitReversalLoop
  refine (foldlM_eq_some (fun e : List R => e.length = 2 ^ k) _ _ _ d hd ?_).1
  intro e i he hi
  have hi2 : i < 2 ^ k := List.mem_range.mp hi
  have hr : reverseBit k i < 2 ^ k := by
    rw [reverseBit_eq_brev hk (by omega)]
    exact brev_lt k i
  simp only []
  split
  · exact ⟨swapAtChecked_eq e (by omega) (by omega),
      by show (swapAt e i (reverseBit k i)).length = _; rw [swapAt_length, he]⟩
  · exact ⟨rfl, he⟩

theorem stageChecked_eq [Ring R] (rot : Nat → Nat → R) (type : Int) (s c : Nat)
    (hk : s + c + 1 ≤ 31) (d : List R) (hd : d.length = 2 ^ (s + c + 1)) :
    stageChecked rot type (2 ^ (s + c + 1)) s d = some (stage rot type (2 ^ (s + c + 1)) s d) ∧
    (stage rot type (2 ^ (s + c + 1)) s d).length = 2 ^ (s + c + 1) := by
  have hhalf : u32 (1 <<< s) = 2 ^ s := by
    rw [Nat.shiftLeft_eq, one_mul]
    exact u32_of_lt (Nat.pow_lt_pow_right (by norm_num) (by omega))
  have hint : (2 ^ (s + c + 1)) >>> (s + 1) = 2 ^ c := by
    rw [Nat.shiftRight_eq_div_pow, show s + c + 1 = c + (s + 1) by ring, pow_add,
      Nat.mul_div_cancel _ (by positivity)]
  have hN : (2 : Nat) ^ (s + c + 1) < 2 ^ 32 := Nat.pow_lt_pow_right (by norm_num) (by omega)
  have hNe : (2 : Nat) ^ (s + c + 1) = 2 ^ c * (2 * 2 ^ s) := by ring
  unfold stageChecked stage
  simp only []
  rw [hhalf, hint]
  refine foldlM_eq_some (fun e : List R => e.length = 2 ^ (s + c + 1)) _ _ _ d hd ?_
  intro e j he hj
  have hj2 : j < 2 ^ c := List.mem_range.mp hj
  refine foldlM_eq_some (fun e : List R => e.length = 2 ^ (s + c + 1)) _ _ _ e he ?_
  intro e' t he' ht
  have ht2 : t < 2 ^ s := List.mem_range.mp ht
  have hhi : j * (2 * 2 ^ s) + (2 ^ s + t) < 2 ^ (s + c + 1) := by
    rw [hNe]; exact block_lt hj2 (by omega)
  have e1 : j * 2 * 2 ^ s + t = j * (2 * 2 ^ s) + t := by ring
  have e2 : j * 2 * 2 ^ s + 2 ^ s + t = j * (2 * 2 ^ s) + (2 ^ s + t) := by ring
  refine ⟨butterflyChecked_eq rot type _ _ _ e' ?_ ?_,
    by show (butterfly rot type (2 ^ s) j t e').length = _; rw [butterfly_length, he']⟩
  · rw [e1, u32_of_lt (by omega), he']; omega
  · rw [e2, u32_of_lt (by omega), he']; omega

/-- With `count = 2 ^ k`, `order = k` and a buffer of `count` slots, no index of `transform`
leaves the buffer. -/
theorem transformChecked_eq [Ring R] (rot : Nat → Nat → R) (type : Int) (k : Nat)
    (hk : k ≤ 31) (s : FFT R) (hc : s.count = 2 ^ k) (ho : s.order = k)
    (hd : s.data.length = 2 ^ k) :
    transformChecked rot type s = some (transform rot type s) := by
  unfold transformChecked transform stages
  rw [hc, ho, bitReversalLoopChecked_eq k hk s.data hd]
  have hl := (bitReversalLoop_spec k hk s.data hd).1
  have hst := foldlM_eq_some (fun e : List R => e.length = 2 ^ k)
    (fun d i => stage rot type (2 ^ k) i d) (fun d i => stageChecked rot type (2 ^ k) i d)
    (List.range k) (bitReversalLoop k (2 ^ k) s.data) hl (by
      intro e i he hi
      have hi2 : i < k := List.mem_range.mp hi
      obtain ⟨c, hc2⟩ : ∃ c, k = i + c + 1 := ⟨k - i - 1, by omega⟩
      subst hc2
      exact stageChecked_eq rot type i c hk e he)
  simp [hst.1]

end FFT

/-! ## The tridiagonal sweep -/

namespace Tridiagonal

variable {T : Type}

theorem usub_eq {a b : Nat} (hb : b ≤ a) (ha : a < 2 ^ 32) : usub a b = a - b := by
  unfold usub
  omega

theorem sweepStep_fst [Field T] (a b c f : List T) (st : List T × List T) (i : Nat) :
    (sweepStep a b c f st i).1 = st.1.set i
      (-(b.getD i 0) / (a.getD (i - 1) 0 * st.1.getD (i - 1) 0 + c.getD i 0)) := rfl

theorem sweepStep_snd [Field T] (a b c f : List T) (st : List T × List T) (i : Nat) :
    (sweepStep a b c f st i).2 = st.2.set i
      ((f.getD i 0 - a.getD (i - 1) 0 * st.2.getD (i - 1) 0)
        / (a.getD (i - 1) 0 * (sweepStep a b c f st i).1.getD (i - 1) 0 + c.getD i 0)) := rfl

/-- The forward loop of `solve` after `t` iterations: the entries `1 .. t` of `alpha` and
`beta` satisfy the sweep recurrences and the other entries are unchanged. -/
theorem sweep_spec [Field T] (a b c f α0 β0 : List T) :
    ∀ t, t < α0.length → t < β0.length →
      ((List.range t).foldl (fun st j => sweepStep a b c f st (j + 1)) (α0, β0)).1.length
        = α0.length ∧
      ((List.range t).foldl (fun st j => sweepStep a b c f st (j + 1)) (α0, β0)).2.length
        = β0.length ∧
      (∀ p, (p = 0 ∨ t < p) →
        ((List.range t).foldl (fun st j => sweepStep a b c f st (j + 1)) (α0, β0)).1.getD p 0
          = α0.getD p 0 ∧
        ((List.range t).foldl (fun st j => sweepStep a b c f st (j + 1)) (α0, β0)).2.getD p 0
          = β0.getD p 0) ∧
      ∀ i, 1 ≤ i → i ≤ t →
        ((List.range t).foldl (fun st j => sweepStep a b c f st (j + 1)) (α0, β0)).1.getD i 0
          = -(b.getD i 0) / (a.getD (i - 1) 0
            * ((List.range t).foldl (fun st j => sweepStep a b c f st (j + 1))
              (α0, β0)).1.getD (i - 1) 0 + c.getD i 0) ∧
        ((List.range t).foldl (fun st j => sweepStep a b c f st (j + 1)) (α0, β0)).2.getD i 0
          = (f.getD i 0 - a.getD (i - 1) 0
              * ((List.range t).foldl (fun st j => sweepStep a b c f st (j + 1))
                (α0, β0)).2.getD (i - 1) 0)
            / (a.getD (i - 1) 0
              * ((List.range t).foldl (fun st j => sweepStep a b c f st (j + 1))
                (α0, β0)).1.getD (i - 1) 0 + c.getD i 0) := by
  intro t
  induction t with
  | zero =>
    intro _ _
    refine ⟨rfl, rfl, fun p _ => ⟨rfl, rfl⟩, ?_⟩
    intro i h1 h2
    omega
  | succ t ih =>
    intro hα hβ
    obtain ⟨l1, l2, hfix, hrec⟩ := ih (by omega) (by omega)
    rw [List.range_succ, List.foldl_append]
    simp only [List.foldl_cons, List.foldl_nil]
    set st := (List.range t).foldl (fun st j => sweepStep a b c f st (j + 1)) (α0, β0) with hst
    have g1 : ∀ p, p ≠ t + 1 → (sweepStep a b c f st (t + 1)).1.getD p 0 = st.1.getD p 0 := by
      intro p hp
      rw [sweepStep_fst, FFT.getD_set, if_neg (fun hc => hp hc.1.symm)]
    have g2 : ∀ p, p ≠ t + 1 → (sweepStep a b c f st (t + 1)).2.getD p 0 = st.2.getD p 0 := by
      intro p hp
      rw [sweepStep_snd, FFT.getD_set, if_neg (fun hc => hp hc.1.symm)]
    refine ⟨?_, ?_, ?_, ?_⟩
    · rw [sweepStep_fst, List.length_set, l1]
    · rw [sweepStep_snd, List.length_set, l2]
    · intro p hp
      rw [g1 p (by omega), g2 p (by omega)]
      exact hfix p (by omega)
    · intro i h1 h2
      by_cases hi : i = t + 1
      · subst hi
        rw [g1 (t + 1 - 1) (by omega), g2 (t + 1 - 1) (by omega)]
        constructor
        · rw [sweepStep_fst, FFT.getD_set, if_pos ⟨rfl, by rw [l1]; exact hα⟩]
        · rw [sweepStep_snd, FFT.getD_set, if_pos ⟨rfl, by rw [l2]; exact hβ⟩,
            g1 (t + 1 - 1) (by omega)]
      · rw [g1 i hi, g2 i hi, g1 (i - 1) (by omega), g2 (i - 1) (by omega)]
        exact hrec i h1 (by omega)

/-- The backward loop of `solve` from `i = m` down to `i = 1`: the entries below `m`
satisfy the back-substitution and the entries from `m` on are unchanged. -/
theorem back_spec [Field T] (α β : List T) :
    ∀ m (x0 : List T), m < x0.length →
      ((List.range m).reverse.foldl (fun x j => backStep α β x (j + 1)) x0).length
        = x0.length ∧
      (∀ p, m ≤ p →
        ((List.range m).reverse.foldl (fun x j => backStep α β x (j + 1)) x0).getD p 0
          = x0.getD p 0) ∧
      ∀ j, j < m →
        ((List.range m).reverse.foldl (fun x j => backStep α β x (j + 1)) x0).getD j 0
          = α.getD j 0
              * ((List.range m).reverse.foldl (fun x j => backStep α β x (j + 1)) x0).getD
                (j + 1) 0
            + β.getD j 0 := by
  intro m
  induction m with
  | zero =>
    intro x0 _
    refine ⟨rfl, fun p _ => rfl, ?_⟩
    intro j hj
    omega
  | succ m ih =>
    intro x0 hlen
    rw [List.range_succ, List.reverse_append]
    simp only [List.reverse_cons, List.reverse_nil, List.nil_append, List.singleton_append,
      List.foldl_cons]
    have hl1 : (backStep α β x0 (m + 1)).length = x0.length := by
      simp [backStep]
    have hg : ∀ p, (backStep α β x0 (m + 1)).getD p 0
        = if p = m then α.getD m 0 * x0.getD (m + 1) 0 + β.getD m 0 else x0.getD p 0 := by
      intro p
      unfold backStep
      rw [Nat.add_sub_cancel, FFT.getD_set]
      by_cases hp : p = m
      · subst hp
        rw [if_pos ⟨rfl, by omega⟩, if_pos rfl]
      · rw [if_neg (fun hc => hp hc.1.symm), if_neg hp]
    obtain ⟨l2, hfix, hrec⟩ := ih (backStep α β x0 (m + 1)) (by rw [hl1]; omega)
    refine ⟨by rw [l2, hl1], ?_, ?_⟩
    · intro p hp
      rw [hfix p (by omega), hg, if_neg (by omega)]
    · intro j hj
      by_cases hjm : j = m
      · subst hjm
        rw [hfix j le_rfl, hfix (j + 1) (by omega), hg, if_pos rfl, hg, if_neg (by omega)]
      · exact hrec j (by omega)

/-- The relations left by `solve` between its arrays and the inputs. -/
theorem solve_spec [Field T] (s : Tridiagonal T) (a b c f : List T) (n : Nat) (hn : 2 ≤ n)
    (hsize : s.size = n) (hfit : n < 2 ^ 32) (hα : n ≤ s.alpha.length)
    (hβ : n ≤ s.beta.length) (hx : n ≤ s.x.length) :
    (solve s a b c f).x.length = s.x.length ∧
    (solve s a b c f).alpha.getD 0 0 = -(b.getD 0 0) / c.getD 0 0 ∧
    (solve s a b c f).beta.getD 0 0 = f.getD 0 0 / c.getD 0 0 ∧
    (∀ i, 1 ≤ i → i ≤ n - 2 →
      (solve s a b c f).alpha.getD i 0
        = -(b.getD i 0)
          / (a.getD (i - 1) 0 * (solve s a b c f).alpha.getD (i - 1) 0 + c.getD i 0) ∧
      (solve s a b c f).beta.getD i 0
        = (f.getD i 0 - a.getD (i - 1) 0 * (solve s a b c f).beta.getD (i - 1) 0)
          / (a.getD (i - 1) 0 * (solve s a b c f).alpha.getD (i - 1) 0 + c.getD i 0)) ∧
    (solve s a b c f).x.getD (n - 1) 0
      = (f.getD (n - 1) 0 - a.getD (n - 2) 0 * (solve s a b c f).beta.getD (n - 2) 0)
        / (a.getD (n - 2) 0 * (solve s a b c f).alpha.getD (n - 2) 0 + c.getD (n - 1) 0) ∧
    ∀ j, j < n - 1 →
      (solve s a b c f).x.getD j 0
        = (solve s a b c f).alpha.getD j 0 * (solve s a b c f).x.getD (j + 1) 0
          + (solve s a b c f).beta.getD j 0 := by
  have h1 : usub s.size 1 = n - 1 := by rw [hsize]; exact usub_eq (by omega) hfit
  have h2 : usub s.size 2 = n - 2 := by rw [hsize]; exact usub_eq (by omega) hfit
  have hl : n - 1 - 1 = n - 2 := by omega
  obtain ⟨l1, l2, hfix, hrec⟩ := sweep_spec a b c f
    (s.alpha.set 0 (-(b.getD 0 0) / c.getD 0 0)) (s.beta.set 0 (f.getD 0 0 / c.getD 0 0))
    (n - 2) (by rw [List.length_set]; omega) (by rw [List.length_set]; omega)
  obtain ⟨l3, xfix, xrec⟩ := back_spec
    ((List.range (n - 2)).foldl (fun st j => sweepStep a b c f st (j + 1))
      (s.alpha.set 0 (-(b.getD 0 0) / c.getD 0 0), s.beta.set 0 (f.getD 0 0 / c.getD 0 0))).1
    ((List.range (n - 2)).foldl (fun st j => sweepStep a b c f st (j + 1))
      (s.alpha.set 0 (-(b.getD 0 0) / c.getD 0 0), s.beta.set 0 (f.getD 0 0 / c.getD 0 0))).2
    (n - 1)
    (s.x.set (n - 1)
      ((f.getD (n - 1) 0 - a.getD (n - 2) 0
          * ((List.range (n - 2)).foldl (fun st j => sweepStep a b c f st (j + 1))
            (s.alpha.set 0 (-(b.getD 0 0) / c.getD 0 0),
              s.beta.set 0 (f.getD 0 0 / c.getD 0 0))).2.getD (n - 2) 0)
        / (a.getD (n - 2) 0
          * ((List.range (n - 2)).foldl (fun st j => sweepStep a b c f st (j + 1))
            (s.alpha.set 0 (-(b.getD 0 0) / c.getD 0 0),
              s.beta.set 0 (f.getD 0 0 / c.getD 0 0))).1.getD (n - 2) 0 + c.getD (n - 1) 0)))
    (by rw [List.length_set]; omega)
  simp only [solve, h1, h2, hl]
  refine ⟨?_, ?_, ?_, hrec, ?_, xrec⟩
  · rw [l3, List.length_set]
  · rw [(hfix 0 (Or.inl rfl)).1, FFT.getD_set, if_pos ⟨rfl, by omega⟩]
  · rw [(hfix 0 (Or.inl rfl)).2, FFT.getD_set, if_pos ⟨rfl, by omega⟩]
  · rw [xfix (n - 1) le_rfl, FFT.getD_set, if_pos ⟨rfl, by omega⟩]

theorem row_first [Field T] (c0 b0 f0 x1 : T) (h : c0 ≠ 0) :
    c0 * (-b0 / c0 * x1 + f0 / c0) + b0 * x1 = f0 := by
  field_simp
  ring

theorem row_middle [Field T] (a c b f A B x1 : T) (h : a * A + c ≠ 0) :
    a * (A * (-b / (a * A + c) * x1 + (f - a * B) / (a * A + c)) + B)
      + c * (-b / (a * A + c) * x1 + (f - a * B) / (a * A + c)) + b * x1 = f := by
  field_simp
  ring

theorem row_last [Field T] (a c f A B : T) (h : a * A + c ≠ 0) :
    a * (A * ((f - a * B) / (a * A + c)) + B) + c * ((f - a * B) / (a * A + c)) = f := by
  field_simp
  ring

end Tridiagonal

namespace FFT

variable {R : Type}

/-! # The claims -/

/-- C1. In NORMAL mode, for every order `k` and every engine whose `count = 2 ^ k` (a value
of the 32-bit field `count`) and `order = k` and whose buffer `x` has length `2 ^ k`,
`directTransformation` is `transform(+1)` and leaves in every slot `m < 2 ^ k` the
unnormalised discrete Fourier transform `∑ n < 2 ^ k, x[n] · e^(-2πi·m·n/2^k)`. -/
theorem directTransformation_normal_eq_dft (k : Nat) (s : FFT ℂ) (hfit : s.count < 2 ^ 32)
    (hmode : s.type_transform = TYPE_TRANSFORM.NORMAL) (hc : s.count = 2 ^ k)
    (ho : s.order = k) (hd : s.data.length = 2 ^ k) (m : Nat) (hm : m < 2 ^ k) :
    directTransformation rotateU s = transform rotateU 1 s ∧
    (directTransformation rotateU s).data[m]? =
      some (∑ n in Finset.range (2 ^ k),
        s.data.getD n 0 * Complex.exp (-(2 * Real.pi * Complex.I * m * n / 2 ^ k))) := by
  have hk : k ≤ 31 := order_le_of_fits (hc ▸ hfit)
  obtain ⟨hlen, hval⟩ := transform_forward_dft k hk s hc ho hd
  refine ⟨directTransformation_normal s hmode, ?_⟩
  rw [directTransformation_normal s hmode]
  exact getElem?_of_getD (by rw [hlen]; exact hm) (hval m hm)

theorem directTransformation_normal_eq_dft_witness :
    (⟨[1, 2], 2, 1, TYPE_TRANSFORM.NORMAL⟩ : FFT ℂ).count < 2 ^ 32 ∧
    (⟨[1, 2], 2, 1, TYPE_TRANSFORM.NORMAL⟩ : FFT ℂ).data.length = 2 ^ 1 ∧ 1 < 2 ^ 1 ∧
    (directTransformation rotateU ⟨[1, 2], 2, 1, TYPE_TRANSFORM.NORMAL⟩
        = transform rotateU 1 ⟨[1, 2], 2, 1, TYPE_TRANSFORM.NORMAL⟩ ∧
      (directTransformation rotateU ⟨[1, 2], 2, 1, TYPE_TRANSFORM.NORMAL⟩).data[1]? =
        some (∑ n in Finset.range (2 ^ 1),
          ([1, 2] : List ℂ).getD n 0
            * Complex.exp (-(2 * Real.pi * Complex.I * (1 : Nat) * n / 2 ^ 1)))) :=
  ⟨by decide, rfl, by decide,
    directTransformation_normal_eq_dft 1 ⟨[1, 2], 2, 1, TYPE_TRANSFORM.NORMAL⟩ (by decide)
      rfl rfl rfl rfl 1 (by decide)⟩

/-- C2, evaluated at the engine `count = 2`, `order = 1`, NORMAL, buffer `[1, 0]`:
`directTransformation` followed by `inverseTransformation` leaves `1/2` in slot `0`,
whose original content is `1`. -/
theorem roundtrip_normal_at_impulse :
    (inverseTransformation rotateU
        (directTransformation rotateU ⟨[1, 0], 2, 1, TYPE_TRANSFORM.NORMAL⟩)).data[0]?
      = some (1 / 2) ∧
    ([1, 0] : List ℂ)[0]? = some 1 ∧ (1 / 2 : ℂ) ≠ 1 := by
  obtain ⟨hlen, hval⟩ := roundtrip_normal_spec 1 (by decide)
    ⟨[1, 0], 2, 1, TYPE_TRANSFORM.NORMAL⟩ rfl rfl rfl rfl
  refine ⟨?_, rfl, by norm_num⟩
  apply getElem?_of_getD (by rw [hlen]; decide)
  rw [hval 0 (by decide)]
  simp

/-- C3, evaluated at the NORMAL engine with `count = 2` and buffer `[1, 2]`:
`engine[size()]` raises nothing and returns a reference past the buffer, while
`engine[size() + 1]` raises and `engine[size() - 1]` returns the last element. -/
theorem index_at_size_not_raised :
    index (⟨[1, 2], 2, 1, TYPE_TRANSFORM.NORMAL⟩ : FFT ℚ)
        (size (⟨[1, 2], 2, 1, TYPE_TRANSFORM.NORMAL⟩ : FFT ℚ)) = Except.ok none ∧
    index (⟨[1, 2], 2, 1, TYPE_TRANSFORM.NORMAL⟩ : FFT ℚ)
        (size (⟨[1, 2], 2, 1, TYPE_TRANSFORM.NORMAL⟩ : FFT ℚ) + 1)
      = Except.error "Index out of range." ∧
    index (⟨[1, 2], 2, 1, TYPE_TRANSFORM.NORMAL⟩ : FFT ℚ)
        (size (⟨[1, 2], 2, 1, TYPE_TRANSFORM.NORMAL⟩ : FFT ℚ) - 1) = Except.ok (some 2) := by
  refine ⟨?_, ?_, ?_⟩ <;> simp [index, size]

/-- C4. In NORMAL mode, for every engine whose `count = 2 ^ k` (a value of the 32-bit field
`count`) and `order = k` and whose buffer `x` has length `2 ^ k`, `inverseTransformation`
leaves in every slot `m < 2 ^ k` the unnormalised inverse transform divided by
`2 · count`: `(1 / (2 · 2 ^ k)) · ∑ n < 2 ^ k, x[n] · e^(+2πi·m·n/2^k)`. -/
theorem inverseTransformation_normal_eq (k : Nat) (s : FFT ℂ) (hfit : s.count < 2 ^ 32)
    (hmode : s.type_transform = TYPE_TRANSFORM.NORMAL) (hc : s.count = 2 ^ k)
    (ho : s.order = k) (hd : s.data.length = 2 ^ k) (m : Nat) (hm : m < 2 ^ k) :
    (inverseTransformation rotateU s).data[m]? =
      some (1 / (2 * 2 ^ k) * ∑ n in Finset.range (2 ^ k),
        s.data.getD n 0 * Complex.exp (2 * Real.pi * Complex.I * m * n / 2 ^ k)) := by
  have hk : k ≤ 31 := order_le_of_fits (hc ▸ hfit)
  obtain ⟨hlen, hval⟩ := inverseTransformation_normal_spec k hk s hmode hc ho hd
  exact getElem?_of_getD (by rw [hlen]; exact hm) (hval m hm)

theorem inverseTransformation_normal_eq_witness :
    (⟨[1, 2], 2, 1, TYPE_TRANSFORM.NORMAL⟩ : FFT ℂ).count < 2 ^ 32 ∧
    (⟨[1, 2], 2, 1, TYPE_TRANSFORM.NORMAL⟩ : FFT ℂ).data.length = 2 ^ 1 ∧ 1 < 2 ^ 1 ∧
    (inverseTransformation rotateU ⟨[1, 2], 2, 1, TYPE_TRANSFORM.NORMAL⟩).data[1]? =
      some (1 / (2 * 2 ^ 1) * ∑ n in Finset.range (2 ^ 1),
        ([1, 2] : List ℂ).getD n 0
          * Complex.exp (2 * Real.pi * Complex.I * (1 : Nat) * n / 2 ^ 1)) :=
  ⟨by decide, rfl, by decide,
    inverseTransformation_normal_eq 1 ⟨[1, 2], 2, 1, TYPE_TRANSFORM.NORMAL⟩ (by decide)
      rfl rfl rfl rfl 1 (by decide)⟩

/-- C5. For an order `k ≤ 31` and an index `i < 2 ^ k`, `reverseBit(i)` is again below
`2 ^ k` and its bit `j` is bit `k - 1 - j` of `i`, for every `j < k`. -/
theorem reverseBit_reverses_bits (k i : Nat) (hk : k ≤ 31) (hi : i < 2 ^ k) :
    reverseBit k i < 2 ^ k ∧
    ∀ j, j < k → (reverseBit k i).testBit j = i.testBit (k - 1 - j) := by
  have hN : (2 : Nat) ^ k < 2 ^ 32 := Nat.pow_lt_pow_right (by norm_num) (by omega)
  rw [reverseBit_eq_brev hk (by omega)]
  exact ⟨brev_lt k i, fun j hj => brev_testBit k i j hj⟩

theorem reverseBit_reverses_bits_witness :
    (3 : Nat) ≤ 31 ∧ 6 < 2 ^ 3 ∧ reverseBit 3 6 = 3 ∧
    (reverseBit 3 6 < 2 ^ 3 ∧
      ∀ j, j < 3 → (reverseBit 3 6).testBit j = (6 : Nat).testBit (3 - 1 - j)) :=
  ⟨by decide, by decide, by decide, reverseBit_reverses_bits 3 6 (by decide) (by decide)⟩

/-- C6. For every order `k` (with `count = 2 ^ k` a value of the 32-bit field `count`) and
every buffer of length `2 ^ k`, running the reordering loop of `transform` twice gives
back the buffer. -/
theorem bitReversalLoop_twice [Zero R] (k : Nat) (hN : 2 ^ k < 2 ^ 32) (d : List R)
    (hd : d.length = 2 ^ k) :
    bitReversalLoop k (2 ^ k) (bitReversalLoop k (2 ^ k) d) = d := by
  have hk : k ≤ 31 := order_le_of_fits hN
  obtain ⟨hl1, hv1⟩ := bitReversalLoop_spec k hk d hd
  obtain ⟨hl2, hv2⟩ := bitReversalLoop_spec k hk _ hl1
  apply ext_getD (by rw [hl2, hd])
  intro p hp
  rw [hl2] at hp
  have hr : reverseBit k p = brev k p := reverseBit_eq_brev hk (by omega)
  have hr2 : reverseBit k (brev k p) = brev k (brev k p) :=
    reverseBit_eq_brev hk (lt_trans (brev_lt k p) hN)
  rw [hv2 p hp, hr, hv1 _ (brev_lt k p), hr2, brev_brev k p hp]

theorem bitReversalLoop_twice_witness :
    2 ^ 2 < 2 ^ 32 ∧ ([10, 11, 12, 13] : List ℚ).length = 2 ^ 2 ∧
    bitReversalLoop 2 (2 ^ 2) ([10, 11, 12, 13] : List ℚ) = [10, 12, 11, 13] ∧
    bitReversalLoop 2 (2 ^ 2) (bitReversalLoop 2 (2 ^ 2) ([10, 11, 12, 13] : List ℚ))
      = [10, 11, 12, 13] :=
  ⟨by decide, rfl, by decide, bitReversalLoop_twice 2 (by decide) [10, 11, 12, 13] rfl⟩

/-- C7. For every stage with `half = 2 ^ i`, `2 · half ≤ 2 ^ 32`, and every offset
`t < half`: `rotate(t·(+1), 2·half)` is `e^(-2πi·t/(2·half))`; the product `t·(-1)` is
`(2 ^ 32 - t) mod 2 ^ 32` in `uint`; `rotate(t·(-1), 2·half)` is `e^(+2πi·t/(2·half))`, the
complex conjugate of the forward factor.  In every butterfly that `transform` executes
(a `uint` `count` and a block `j < count >> (i + 1)`) the loop variable `half = 1 << i` is
`2 ^ i`, the `uint` product `half*2` is `2 · half`, and the twiddle factors
`rotate(t*type, half*2)` of the two directions are these values. -/
theorem twiddle_values (i t : Nat) (hi : 2 * 2 ^ i ≤ 2 ^ 32) (ht : t < 2 ^ i) :
    rotateU (mulType t 1) (2 * 2 ^ i)
      = Complex.exp (-(2 * Real.pi * Complex.I * t / (2 * 2 ^ i))) ∧
    mulType t (-1) = (2 ^ 32 - t) % 2 ^ 32 ∧
    rotateU (mulType t (-1)) (2 * 2 ^ i)
      = Complex.exp (2 * Real.pi * Complex.I * t / (2 * 2 ^ i)) ∧
    rotateU (mulType t (-1)) (2 * 2 ^ i)
      = (starRingEnd ℂ) (rotateU (mulType t 1) (2 * 2 ^ i)) ∧
    ∀ count j, count < 2 ^ 32 → j < count >>> (i + 1) →
      u32 (1 <<< i) = 2 ^ i ∧ u32 (u32 (1 <<< i) * 2) = 2 * 2 ^ i ∧
      twiddle 1 (u32 (1 <<< i)) t
        = Complex.exp (-(2 * Real.pi * Complex.I * t / (2 * 2 ^ i))) ∧
      twiddle (-1) (u32 (1 <<< i)) t
        = Complex.exp (2 * Real.pi * Complex.I * t / (2 * 2 ^ i)) := by
  have hs : i ≤ 31 := by
    have h1 : 2 ^ (i + 1) ≤ 2 ^ 32 := by rw [pow_succ]; omega
    have := (Nat.pow_le_pow_iff_right (by norm_num : 1 < 2)).mp h1
    omega
  have ht' : t < 2 ^ 32 :=
    lt_trans ht (Nat.pow_lt_pow_right (by norm_num) (by omega))
  have hf := rotateU_forward hs ht
  have hb := rotateU_inverse hs ht
  refine ⟨hf, mulType_neg_one t ht', hb, ?_, ?_⟩
  · rw [hf, hb, ← Complex.exp_conj]
    congr 1
    simp [Complex.conj_ofReal, Complex.conj_I, map_ofNat]
    ring
  · intro count j hfit hj
    have hi30 : i ≤ 30 := stage_le_of_block hfit hj
    have hhalf : u32 (1 <<< i) = 2 ^ i := by
      rw [Nat.shiftLeft_eq, one_mul]
      exact u32_of_lt (Nat.pow_lt_pow_right (by norm_num) (by omega))
    have e : (2 : ℂ) * 2 ^ i = 2 ^ (i + 1) := by ring
    rw [hhalf, e]
    refine ⟨rfl, ?_, twiddle_forward hi30 ht, twiddle_inverse hi30 ht⟩
    rw [u32_two_pow_mul_two hi30, pow_succ]
    ring

theorem twiddle_values_witness :
    2 * 2 ^ 1 ≤ 2 ^ 32 ∧ 1 < 2 ^ 1 ∧
    (rotateU (mulType 1 1) (2 * 2 ^ 1)
      = Complex.exp (-(2 * Real.pi * Complex.I * (1 : Nat) / (2 * 2 ^ 1))) ∧
    mulType 1 (-1) = (2 ^ 32 - 1) % 2 ^ 32 ∧
    rotateU (mulType 1 (-1)) (2 * 2 ^ 1)
      = Complex.exp (2 * Real.pi * Complex.I * (1 : Nat) / (2 * 2 ^ 1)) ∧
    rotateU (mulType 1 (-1)) (2 * 2 ^ 1)
      = (starRingEnd ℂ) (rotateU (mulType 1 1) (2 * 2 ^ 1)) ∧
    ∀ count j, count < 2 ^ 32 → j < count >>> (1 + 1) →
      u32 (1 <<< 1) = 2 ^ 1 ∧ u32 (u32 (1 <<< 1) * 2) = 2 * 2 ^ 1 ∧
      twiddle 1 (u32 (1 <<< 1)) 1
        = Complex.exp (-(2 * Real.pi * Complex.I * (1 : Nat) / (2 * 2 ^ 1))) ∧
      twiddle (-1) (u32 (1 <<< 1)) 1
        = Complex.exp (2 * Real.pi * Complex.I * (1 : Nat) / (2 * 2 ^ 1))) :=
  ⟨by norm_num, by norm_num, twiddle_values 1 1 (by norm_num) (by norm_num)⟩

/-- C8. For `N ≥ 1` (with `2·N` a `uint` value) and a buffer `d` of length `2·N`, after
the SIN_HALF_FREQ extension of `transformData` the buffer `e` still has length `2·N`,
`e[2N - i - 1] = -e[i + 1]` for every `i < N`, `e[N] = 0`, and `e[p] = d[p]` for `p < N`. -/
theorem transformData_sin_symmetry [Field R] (N order : Nat) (hN : 1 ≤ N)
    (hfit : 2 * N < 2 ^ 32) (d : List R) (hd : d.length = 2 * N) :
    (transformData true ⟨d, N, order, TYPE_TRANSFORM.SIN_HALF_FREQ⟩).data.length = 2 * N ∧
    (∀ i, i < N →
      (transformData true ⟨d, N, order, TYPE_TRANSFORM.SIN_HALF_FREQ⟩).data.getD
          (2 * N - i - 1) 0
        = -(transformData true ⟨d, N, order, TYPE_TRANSFORM.SIN_HALF_FREQ⟩).data.getD
          (i + 1) 0) ∧
    (transformData true ⟨d, N, order, TYPE_TRANSFORM.SIN_HALF_FREQ⟩).data.getD N 0 = 0 ∧
    ∀ p, p < N →
      (transformData true ⟨d, N, order, TYPE_TRANSFORM.SIN_HALF_FREQ⟩).data.getD p 0
        = d.getD p 0 := by
  have hdata : (transformData true ⟨d, N, order, TYPE_TRANSFORM.SIN_HALF_FREQ⟩).data
      = sinExtend N d := by
    simp [transformData]
  rw [hdata]
  obtain ⟨hlen, hval⟩ := sinExtend_getD N hN hfit d hd
  refine ⟨hlen, ?_, ?_, ?_⟩
  · intro i hi
    rw [hval, hval]
    by_cases hlast : i + 1 = N
    · rw [if_pos (by omega), if_pos hlast, neg_zero]
    · rw [if_neg (by omega), if_pos (by omega), if_neg hlast, if_neg (by omega),
        show 2 * N - (2 * N - i - 1) = i + 1 by omega]
      simp
  · rw [hval, if_pos rfl]
  · intro p hp
    rw [hval, if_neg (by omega), if_neg (by omega)]

theorem transformData_sin_symmetry_witness :
    (1 : Nat) ≤ 2 ∧ 2 * 2 < 2 ^ 32 ∧ ([1, 2, 3, 4] : List ℚ).length = 2 * 2 ∧
    (transformData true (⟨[1, 2, 3, 4], 2, 1, TYPE_TRANSFORM.SIN_HALF_FREQ⟩ : FFT ℚ)).data
      = [1, 2, 0, -2] ∧
    ((transformData true (⟨[1, 2, 3, 4], 2, 1, TYPE_TRANSFORM.SIN_HALF_FREQ⟩
        : FFT ℚ)).data.length = 2 * 2 ∧
    (∀ i, i < 2 →
      (transformData true (⟨[1, 2, 3, 4], 2, 1, TYPE_TRANSFORM.SIN_HALF_FREQ⟩ : FFT ℚ)).data.getD
          (2 * 2 - i - 1) 0
        = -(transformData true (⟨[1, 2, 3, 4], 2, 1, TYPE_TRANSFORM.SIN_HALF_FREQ⟩
          : FFT ℚ)).data.getD (i + 1) 0) ∧
    (transformData true (⟨[1, 2, 3, 4], 2, 1, TYPE_TRANSFORM.SIN_HALF_FREQ⟩
        : FFT ℚ)).data.getD 2 0 = 0 ∧
    ∀ p, p < 2 →
      (transformData true (⟨[1, 2, 3, 4], 2, 1, TYPE_TRANSFORM.SIN_HALF_FREQ⟩ : FFT ℚ)).data.getD
          p 0
        = ([1, 2, 3, 4] : List ℚ).getD p 0) :=
  ⟨by decide, by decide, rfl,
    by simp [transformData, sinExtend, mirrorIndex, List.range_succ],
    transformData_sin_symmetry 2 1 (by decide) (by decide) [1, 2, 3, 4] rfl⟩

/-- C9. For `N ≥ 2` (with `2·N` a `uint` value) and a buffer `d` of length `2·N`, after
the COS_HALF_FREQ extension of `transformData` the buffer `e` still has length `2·N`,
`e[2N - i - 1] = e[i + 1]` for every `i < N`, and `e[p] = d[p]` for `p < N`. -/
theorem transformData_cos_symmetry [Field R] (N order : Nat) (hN : 2 ≤ N)
    (hfit : 2 * N < 2 ^ 32) (d : List R) (hd : d.length = 2 * N) :
    (transformData true ⟨d, N, order, TYPE_TRANSFORM.COS_HALF_FREQ⟩).data.length = 2 * N ∧
    (∀ i, i < N →
      (transformData true ⟨d, N, order, TYPE_TRANSFORM.COS_HALF_FREQ⟩).data.getD
          (2 * N - i - 1) 0
        = (transformData true ⟨d, N, order, TYPE_TRANSFORM.COS_HALF_FREQ⟩).data.getD
          (i + 1) 0) ∧
    ∀ p, p < N →
      (transformData true ⟨d, N, order, TYPE_TRANSFORM.COS_HALF_FREQ⟩).data.getD p 0
        = d.getD p 0 := by
  have hdata : (transformData true ⟨d, N, order, TYPE_TRANSFORM.COS_HALF_FREQ⟩).data
      = cosExtend N d := by
    simp [transformData]
  rw [hdata]
  obtain ⟨hlen, hval⟩ := cosExtend_getD N hN hfit d hd
  refine ⟨hlen, ?_, ?_⟩
  · intro i hi
    by_cases hlast : i + 1 = N
    · rw [show 2 * N - i - 1 = i + 1 by omega]
    · rw [hval, hval, if_neg (by omega), if_pos (by omega), if_neg hlast, if_neg (by omega),
        show 2 * N - (2 * N - i - 1) = i + 1 by omega]
  · intro p hp
    rw [hval, if_neg (by omega), if_neg (by omega)]

theorem transformData_cos_symmetry_witness :
    (2 : Nat) ≤ 2 ∧ 2 * 2 < 2 ^ 32 ∧ ([1, 2, 3, 4] : List ℚ).length = 2 * 2 ∧
    (transformData true (⟨[1, 2, 3, 4], 2, 1, TYPE_TRANSFORM.COS_HALF_FREQ⟩ : FFT ℚ)).data
      = [1, 2, 2, 2] ∧
    ((transformData true (⟨[1, 2, 3, 4], 2, 1, TYPE_TRANSFORM.COS_HALF_FREQ⟩
        : FFT ℚ)).data.length = 2 * 2 ∧
    (∀ i, i < 2 →
      (transformData true (⟨[1, 2, 3, 4], 2, 1, TYPE_TRANSFORM.COS_HALF_FREQ⟩ : FFT ℚ)).data.getD
          (2 * 2 - i - 1) 0
        = (transformData true (⟨[1, 2, 3, 4], 2, 1, TYPE_TRANSFORM.COS_HALF_FREQ⟩
          : FFT ℚ)).data.getD (i + 1) 0) ∧
    ∀ p, p < 2 →
      (transformData true (⟨[1, 2, 3, 4], 2, 1, TYPE_TRANSFORM.COS_HALF_FREQ⟩ : FFT ℚ)).data.getD
          p 0
        = ([1, 2, 3, 4] : List ℚ).getD p 0) :=
  ⟨by decide, by decide, rfl,
    by simp [transformData, cosExtend, mirrorIndex, countPred, u32, List.range_succ]; norm_num,
    transformData_cos_symmetry 2 1 (by decide) (by decide) [1, 2, 3, 4] rfl⟩

/-- C10, refuted at the SIN_HALF_FREQ engine built by the constructor from `[1, 1, 0, 0]`
with `count = 2` (buffer `[1, 1, 0, -1]` after the extension) and modified by
`engine[1] = 7`: `directTransformation` transforms the buffer `[1, 7, 0, -1]` as it stands
(slot `0` becomes `7`), not the freshly odd-extended buffer `[1, 7, 0, -7]` (whose
transform has `1` in slot `0`). -/
theorem directTransformation_does_not_extend :
    (FFT.new [1, 1, 0, 0] 2 true TYPE_TRANSFORM.SIN_HALF_FREQ : Option (FFT ℂ))
      = some ⟨[1, 1, 0, -1], 2, 1, TYPE_TRANSFORM.SIN_HALF_FREQ⟩ ∧
    assign (⟨[1, 1, 0, -1], 2, 1, TYPE_TRANSFORM.SIN_HALF_FREQ⟩ : FFT ℂ) 1 7
      = Except.ok ⟨[1, 7, 0, -1], 2, 1, TYPE_TRANSFORM.SIN_HALF_FREQ⟩ ∧
    (transformData true
        (⟨[1, 7, 0, -1], 2, 1, TYPE_TRANSFORM.SIN_HALF_FREQ⟩ : FFT ℂ)).data = [1, 7, 0, -7] ∧
    (directTransformation rotateU
        ⟨[1, 7, 0, -1], 2, 1, TYPE_TRANSFORM.SIN_HALF_FREQ⟩).data[0]? = some 7 ∧
    (directTransformation rotateU
        (transformData true ⟨[1, 7, 0, -1], 2, 1, TYPE_TRANSFORM.SIN_HALF_FREQ⟩)).data[0]?
      = some 1 ∧
    (directTransformation rotateU ⟨[1, 7, 0, -1], 2, 1, TYPE_TRANSFORM.SIN_HALF_FREQ⟩).data
      ≠ (directTransformation rotateU
          (transformData true ⟨[1, 7, 0, -1], 2, 1, TYPE_TRANSFORM.SIN_HALF_FREQ⟩)).data := by
  have hord : orderOf 2 = some 1 := by
    simp [orderOf, orderWord, log2Floor, countPred, Nat.log2]
  have hnew : (FFT.new [1, 1, 0, 0] 2 true TYPE_TRANSFORM.SIN_HALF_FREQ : Option (FFT ℂ))
      = some ⟨[1, 1, 0, -1], 2, 1, TYPE_TRANSFORM.SIN_HALF_FREQ⟩ := by
    simp [FFT.new, hord, transformData, sinExtend, mirrorIndex, List.range_succ]
  have hset : assign (⟨[1, 1, 0, -1], 2, 1, TYPE_TRANSFORM.SIN_HALF_FREQ⟩ : FFT ℂ) 1 7
      = Except.ok ⟨[1, 7, 0, -1], 2, 1, TYPE_TRANSFORM.SIN_HALF_FREQ⟩ := by
    simp [assign]
  have hext : (transformData true
      (⟨[1, 7, 0, -1], 2, 1, TYPE_TRANSFORM.SIN_HALF_FREQ⟩ : FFT ℂ)).data = [1, 7, 0, -7] := by
    simp [transformData, sinExtend, mirrorIndex, List.range_succ]
  have hst : transformData true (⟨[1, 7, 0, -1], 2, 1, TYPE_TRANSFORM.SIN_HALF_FREQ⟩ : FFT ℂ)
      = ⟨[1, 7, 0, -7], 2, 1, TYPE_TRANSFORM.SIN_HALF_FREQ⟩ := by
    simp [transformData, sinExtend, mirrorIndex, List.range_succ]
  obtain ⟨-, -, hl1, hv1⟩ := directTransformation_half_spec 1 (by decide)
    ⟨[1, 7, 0, -1], 2, 1, TYPE_TRANSFORM.SIN_HALF_FREQ⟩ (by decide) rfl rfl rfl
  obtain ⟨-, -, hl2, hv2⟩ := directTransformation_half_spec 1 (by decide)
    ⟨[1, 7, 0, -7], 2, 1, TYPE_TRANSFORM.SIN_HALF_FREQ⟩ (by decide) rfl rfl rfl
  have h1 : (directTransformation rotateU
      ⟨[1, 7, 0, -1], 2, 1, TYPE_TRANSFORM.SIN_HALF_FREQ⟩).data[0]? = some 7 := by
    apply getElem?_of_getD (by rw [hl1]; decide)
    rw [hv1 0 (by decide)]
    simp [Finset.sum_range_succ]
  have h2 : (directTransformation rotateU
      (transformData true ⟨[1, 7, 0, -1], 2, 1, TYPE_TRANSFORM.SIN_HALF_FREQ⟩)).data[0]?
        = some 1 := by
    rw [hst]
    apply getElem?_of_getD (by rw [hl2]; decide)
    rw [hv2 0 (by decide)]
    simp [Finset.sum_range_succ]
  refine ⟨hnew, hset, hext, h1, h2, ?_⟩
  intro h
  rw [h, h2] at h1
  norm_num at h1

/-- C10, amended. In a half-frequency mode, for an engine whose `count = 2 ^ k` and
`order = k` (`2 · count` a value of the 32-bit field `count`) and whose buffer has
`2 · count` slots, `directTransformation` and
`inverseTransformation` transform the buffer as it stands, without extending it again:
slot `m < 2 · count` receives the length-`2·count` transform of the current buffer (for
the inverse, divided by `2 · count` when `m < count`), and `count`, `order` are restored. -/
theorem half_frequency_transforms_buffer_as_it_stands (k : Nat) (s : FFT ℂ)
    (hfit : 2 * s.count < 2 ^ 32) (hmode : s.type_transform ≠ TYPE_TRANSFORM.NORMAL) (hc : s.count = 2 ^ k)
    (ho : s.order = k) (hd : s.data.length = 2 ^ (k + 1)) (m : Nat) (hm : m < 2 ^ (k + 1)) :
    (directTransformation rotateU s).data[m]? =
      some (∑ n in Finset.range (2 ^ (k + 1)),
        s.data.getD n 0 * Complex.exp (-(2 * Real.pi * Complex.I * m * n / 2 ^ (k + 1)))) ∧
    (inverseTransformation rotateU s).data[m]? =
      some ((if m < 2 ^ k then 1 / (2 * 2 ^ k) else 1) *
        ∑ n in Finset.range (2 ^ (k + 1)),
          s.data.getD n 0 * Complex.exp (2 * Real.pi * Complex.I * m * n / 2 ^ (k + 1))) ∧
    (directTransformation rotateU s).count = s.count ∧
    (directTransformation rotateU s).order = s.order ∧
    (inverseTransformation rotateU s).count = s.count ∧
    (inverseTransformation rotateU s).order = s.order := by
  have hk : k ≤ 30 := by
    have h2 : 2 ^ (k + 1) < 2 ^ 32 := by rw [pow_succ]; omega
    have := order_le_of_fits h2
    omega
  obtain ⟨c1, o1, l1, v1⟩ := directTransformation_half_spec k hk s hmode hc ho hd
  obtain ⟨c2, o2, l2, v2⟩ := inverseTransformation_half_spec k hk s hmode hc ho hd
  refine ⟨getElem?_of_getD (by rw [l1]; exact hm) (v1 m hm),
    getElem?_of_getD (by rw [l2]; exact hm) (v2 m hm), ?_, ?_, ?_, ?_⟩
  · rw [c1, hc]
  · rw [o1, ho]
  · rw [c2, hc]
  · rw [o2, ho]

theorem half_frequency_transforms_buffer_as_it_stands_witness :
    2 * (⟨[1, 7, 0, -1], 2, 1, TYPE_TRANSFORM.SIN_HALF_FREQ⟩ : FFT ℂ).count < 2 ^ 32 ∧
    (⟨[1, 7, 0, -1], 2, 1, TYPE_TRANSFORM.SIN_HALF_FREQ⟩ : FFT ℂ).type_transform
      ≠ TYPE_TRANSFORM.NORMAL ∧
    (⟨[1, 7, 0, -1], 2, 1, TYPE_TRANSFORM.SIN_HALF_FREQ⟩ : FFT ℂ).data.length = 2 ^ (1 + 1) ∧
    3 < 2 ^ (1 + 1) ∧
    ((directTransformation rotateU
        ⟨[1, 7, 0, -1], 2, 1, TYPE_TRANSFORM.SIN_HALF_FREQ⟩).data[3]? =
      some (∑ n in Finset.range (2 ^ (1 + 1)),
        ([1, 7, 0, -1] : List ℂ).getD n 0
          * Complex.exp (-(2 * Real.pi * Complex.I * (3 : Nat) * n / 2 ^ (1 + 1)))) ∧
    (inverseTransformation rotateU
        ⟨[1, 7, 0, -1], 2, 1, TYPE_TRANSFORM.SIN_HALF_FREQ⟩).data[3]? =
      some ((if 3 < 2 ^ 1 then 1 / (2 * 2 ^ 1) else 1) *
        ∑ n in Finset.range (2 ^ (1 + 1)),
          ([1, 7, 0, -1] : List ℂ).getD n 0
            * Complex.exp (2 * Real.pi * Complex.I * (3 : Nat) * n / 2 ^ (1 + 1))) ∧
    (directTransformation rotateU
        ⟨[1, 7, 0, -1], 2, 1, TYPE_TRANSFORM.SIN_HALF_FREQ⟩).count = 2 ∧
    (directTransformation rotateU
        ⟨[1, 7, 0, -1], 2, 1, TYPE_TRANSFORM.SIN_HALF_FREQ⟩).order = 1 ∧
    (inverseTransformation rotateU
        ⟨[1, 7, 0, -1], 2, 1, TYPE_TRANSFORM.SIN_HALF_FREQ⟩).count = 2 ∧
    (inverseTransformation rotateU
        ⟨[1, 7, 0, -1], 2, 1, TYPE_TRANSFORM.SIN_HALF_FREQ⟩).order = 1) :=
  ⟨by decide, by decide, rfl, by decide,
    half_frequency_transforms_buffer_as_it_stands 1
      ⟨[1, 7, 0, -1], 2, 1, TYPE_TRANSFORM.SIN_HALF_FREQ⟩ (by decide) (by decide) rfl rfl rfl 3
      (by decide)⟩

/-- C11. In NORMAL mode, for every order `k` (with `count = 2 ^ k` a value of the 32-bit
field `count`), `directTransformation` applied to the impulse `[1, 0, ..., 0]` of length
`2 ^ k` leaves exactly `1`, of magnitude `1`, in every slot `m < 2 ^ k`. -/
theorem directTransformation_impulse (k : Nat) (hfit : 2 ^ k < 2 ^ 32) (m : Nat)
    (hm : m < 2 ^ k) :
    (directTransformation rotateU
        ⟨1 :: List.replicate (2 ^ k - 1) 0, 2 ^ k, k, TYPE_TRANSFORM.NORMAL⟩).data[m]?
      = some 1 ∧
    Complex.abs ((directTransformation rotateU
        ⟨1 :: List.replicate (2 ^ k - 1) 0, 2 ^ k, k, TYPE_TRANSFORM.NORMAL⟩).data.getD m 0)
      = 1 := by
  have hk : k ≤ 31 := order_le_of_fits hfit
  have hpos : 0 < 2 ^ k := by positivity
  have hd : ((1 : ℂ) :: List.replicate (2 ^ k - 1) 0).length = 2 ^ k := by
    simp only [List.length_cons, List.length_replicate]
    omega
  obtain ⟨hlen, hval⟩ := transform_forward_dft k hk
    ⟨1 :: List.replicate (2 ^ k - 1) 0, 2 ^ k, k, TYPE_TRANSFORM.NORMAL⟩ rfl rfl hd
  have hone : (directTransformation rotateU
      ⟨1 :: List.replicate (2 ^ k - 1) 0, 2 ^ k, k, TYPE_TRANSFORM.NORMAL⟩).data.getD m 0
        = 1 := by
    rw [directTransformation_normal _ rfl, hval m hm,
      Finset.sum_eq_single 0]
    · simp
    · intro n _ hn
      show ((1 : ℂ) :: List.replicate (2 ^ k - 1) 0).getD n 0 * _ = 0
      rw [impulse_getD, if_neg hn, zero_mul]
    · intro h
      exact absurd (Finset.mem_range.mpr hpos) h
  refine ⟨?_, by rw [hone]; simp⟩
  apply getElem?_of_getD _ hone
  rw [directTransformation_normal _ rfl, hlen]
  exact hm

theorem directTransformation_impulse_witness :
    2 ^ 2 < 2 ^ 32 ∧ 3 < 2 ^ 2 ∧
    ((directTransformation rotateU
        ⟨1 :: List.replicate (2 ^ 2 - 1) 0, 2 ^ 2, 2, TYPE_TRANSFORM.NORMAL⟩).data[3]?
      = some 1 ∧
    Complex.abs ((directTransformation rotateU
        ⟨1 :: List.replicate (2 ^ 2 - 1) 0, 2 ^ 2, 2, TYPE_TRANSFORM.NORMAL⟩).data.getD 3 0)
      = 1) :=
  ⟨by decide, by decide, directTransformation_impulse 2 (by decide) 3 (by decide)⟩

/-- C12. For every order `k` (with `count = 2 ^ k` a value of the 32-bit field `count`), all
complex scalars `a`, `b` and all buffers `x`, `y` of length `2 ^ k`, `transform(+1)` of
`a·x + b·y` is, slot by slot, `a·transform(+1)(x) + b·transform(+1)(y)`, and likewise for
`transform(-1)`. -/
theorem transform_linear (k : Nat) (hfit : 2 ^ k < 2 ^ 32) (mode : TYPE_TRANSFORM) (a b : ℂ)
    (x y : List ℂ) (hx : x.length = 2 ^ k) (hy : y.length = 2 ^ k) (m : Nat) (hm : m < 2 ^ k) :
    (transform rotateU 1
        ⟨List.zipWith (fun u v => a * u + b * v) x y, 2 ^ k, k, mode⟩).data[m]?
      = some (a * (transform rotateU 1 ⟨x, 2 ^ k, k, mode⟩).data.getD m 0
        + b * (transform rotateU 1 ⟨y, 2 ^ k, k, mode⟩).data.getD m 0) ∧
    (transform rotateU (-1)
        ⟨List.zipWith (fun u v => a * u + b * v) x y, 2 ^ k, k, mode⟩).data[m]?
      = some (a * (transform rotateU (-1) ⟨x, 2 ^ k, k, mode⟩).data.getD m 0
        + b * (transform rotateU (-1) ⟨y, 2 ^ k, k, mode⟩).data.getD m 0) := by
  obtain ⟨⟨l1, v1⟩, ⟨l2, v2⟩⟩ :=
    transform_linear_spec k (order_le_of_fits hfit) mode a b x y hx hy m hm
  exact ⟨getElem?_of_getD (by rw [l1]; exact hm) v1, getElem?_of_getD (by rw [l2]; exact hm) v2⟩

theorem transform_linear_witness :
    2 ^ 1 < 2 ^ 32 ∧ ([1, 2] : List ℂ).length = 2 ^ 1 ∧ ([3, 5] : List ℂ).length = 2 ^ 1 ∧
    1 < 2 ^ 1 ∧
    List.zipWith (fun u v => 2 * u + 7 * v) ([1, 2] : List ℂ) [3, 5] = [2 * 1 + 7 * 3, 2 * 2 + 7 * 5] ∧
    ((transform rotateU 1
        ⟨List.zipWith (fun u v => 2 * u + 7 * v) [1, 2] [3, 5], 2 ^ 1, 1,
          TYPE_TRANSFORM.NORMAL⟩).data[1]?
      = some (2 * (transform rotateU 1 ⟨[1, 2], 2 ^ 1, 1, TYPE_TRANSFORM.NORMAL⟩).data.getD 1 0
        + 7 * (transform rotateU 1 ⟨[3, 5], 2 ^ 1, 1, TYPE_TRANSFORM.NORMAL⟩).data.getD 1 0) ∧
    (transform rotateU (-1)
        ⟨List.zipWith (fun u v => 2 * u + 7 * v) [1, 2] [3, 5], 2 ^ 1, 1,
          TYPE_TRANSFORM.NORMAL⟩).data[1]?
      = some (2 * (transform rotateU (-1) ⟨[1, 2], 2 ^ 1, 1, TYPE_TRANSFORM.NORMAL⟩).data.getD 1 0
        + 7 * (transform rotateU (-1)
            ⟨[3, 5], 2 ^ 1, 1, TYPE_TRANSFORM.NORMAL⟩).data.getD 1 0)) :=
  ⟨by decide, rfl, rfl, by decide, rfl,
    transform_linear 1 (by decide) TYPE_TRANSFORM.NORMAL 2 7 [1, 2] [3, 5] rfl rfl 1
      (by decide)⟩

/-- C13. In NORMAL mode, for every engine whose `count = 2 ^ k` (a value of the 32-bit field
`count`) and `order = k` and whose buffer `x` has length `2 ^ k`, the output `X` of
`directTransformation` satisfies `∑ m, |X[m]|² = 2 ^ k · ∑ n, |x[n]|²`. -/
theorem directTransformation_parseval (k : Nat) (s : FFT ℂ) (hfit : s.count < 2 ^ 32)
    (hmode : s.type_transform = TYPE_TRANSFORM.NORMAL) (hc : s.count = 2 ^ k)
    (ho : s.order = k) (hd : s.data.length = 2 ^ k) :
    (directTransformation rotateU s).data.length = 2 ^ k ∧
    ∑ m in Finset.range (2 ^ k),
        Complex.abs ((directTransformation rotateU s).data.getD m 0) ^ 2
      = 2 ^ k * ∑ n in Finset.range (2 ^ k), Complex.abs (s.data.getD n 0) ^ 2 := by
  have hk : k ≤ 31 := order_le_of_fits (hc ▸ hfit)
  obtain ⟨hlen, hval⟩ := transform_forward_dft k hk s hc ho hd
  rw [directTransformation_normal s hmode]
  refine ⟨hlen, ?_⟩
  have hp := dft_parseval (2 ^ k) (fun n => s.data.getD n 0)
  push_cast at hp
  simp_rw [Complex.sq_abs]
  rw [← hp]
  apply Finset.sum_congr rfl
  intro m hm
  rw [hval m (Finset.mem_range.mp hm)]

theorem directTransformation_parseval_witness :
    (⟨[1, 2], 2, 1, TYPE_TRANSFORM.NORMAL⟩ : FFT ℂ).count < 2 ^ 32 ∧
    (⟨[1, 2], 2, 1, TYPE_TRANSFORM.NORMAL⟩ : FFT ℂ).data.length = 2 ^ 1 ∧
    ((directTransformation rotateU ⟨[1, 2], 2, 1, TYPE_TRANSFORM.NORMAL⟩).data.length = 2 ^ 1 ∧
    ∑ m in Finset.range (2 ^ 1),
        Complex.abs ((directTransformation rotateU
          ⟨[1, 2], 2, 1, TYPE_TRANSFORM.NORMAL⟩).data.getD m 0) ^ 2
      = 2 ^ 1 * ∑ n in Finset.range (2 ^ 1), Complex.abs (([1, 2] : List ℂ).getD n 0) ^ 2) :=
  ⟨by decide, rfl,
    directTransformation_parseval 1 ⟨[1, 2], 2, 1, TYPE_TRANSFORM.NORMAL⟩ (by decide)
      rfl rfl rfl rfl⟩

/-- C14. For every `count` with `2 ≤ count ≤ 2 ^ 31` the constructor computes the order
`⌊log2(count - 1)⌋ + 1`, which is `⌈log2(count)⌉`, the least `j` with `count ≤ 2 ^ j`; for a
power of two `count = 2 ^ k` the order is `k` and `2 ^ order = count`. -/
theorem orderOf_eq_clog (count : Nat) (h2 : 2 ≤ count) (hmax : count ≤ 2 ^ 31) :
    orderOf count = some (Nat.log2 (count - 1) + 1) ∧
    Nat.log2 (count - 1) + 1 = Nat.clog 2 count ∧
    count ≤ 2 ^ (Nat.log2 (count - 1) + 1) ∧
    (∀ j, count ≤ 2 ^ j → Nat.log2 (count - 1) + 1 ≤ j) ∧
    (∀ k, count = 2 ^ k →
      orderOf count = some k ∧ 2 ^ (Nat.log2 (count - 1) + 1) = count) ∧
    ∀ (d : List ℂ) ( link : Bool) (mode : TYPE_TRANSFORM),
      (FFT.new d count link mode).map (fun e => e.order)
        = some (Nat.log2 (count - 1) + 1) := by
  obtain ⟨h1, hle, hleast⟩ := orderOf_spec h2 hmax
  have hclog : Nat.log2 (count - 1) + 1 = Nat.clog 2 count := by
    apply le_antisymm
    · exact hleast _ (Nat.le_pow_clog (by norm_num) count)
    · exact (Nat.le_pow_iff_clog_le (by norm_num)).mp hle
  refine ⟨h1, hclog, hle, hleast, ?_, ?_⟩
  · intro k hk
    have hk2 : Nat.log2 (count - 1) + 1 = k := by
      rw [hclog, hk, Nat.clog_pow 2 k (by norm_num)]
    rw [h1, hk2]
    exact ⟨rfl, hk.symm⟩
  · intro d link mode
    simp [FFT.new, h1, transformData]

theorem orderOf_eq_clog_witness :
    (2 : Nat) ≤ 8 ∧ 8 ≤ 2 ^ 31 ∧
    (orderOf 8 = some (Nat.log2 (8 - 1) + 1) ∧
    Nat.log2 (8 - 1) + 1 = Nat.clog 2 8 ∧
    8 ≤ 2 ^ (Nat.log2 (8 - 1) + 1) ∧
    (∀ j, 8 ≤ 2 ^ j → Nat.log2 (8 - 1) + 1 ≤ j) ∧
    (∀ k, 8 = 2 ^ k → orderOf 8 = some k ∧ 2 ^ (Nat.log2 (8 - 1) + 1) = 8) ∧
    ∀ (d : List ℂ) ( link : Bool) (mode : TYPE_TRANSFORM),
      (FFT.new d 8 link mode).map (fun e => e.order) = some (Nat.log2 (8 - 1) + 1)) :=
  ⟨by decide, by decide, orderOf_eq_clog 8 (by decide) (by decide)⟩

end FFT

namespace Tridiagonal

variable {T : Type}

/-- C15. For every size `n ≥ 2` (a `uint` value) and all diagonals `a` (lower, `a[i-1]` in
row `i`), `b` (upper), `c` (main) and right-hand side `f` over a field such that the pivots
`c[0]` and `a[i-1]·alpha[i-1] + c[i]` (`1 ≤ i < n`) are non-zero, `solve` leaves in `x` a
solution of the tridiagonal system: `c[0]·x[0] + b[0]·x[1] = f[0]`,
`a[i-1]·x[i-1] + c[i]·x[i] + b[i]·x[i+1] = f[i]` for `0 < i < n - 1`, and
`a[n-2]·x[n-2] + c[n-1]·x[n-1] = f[n-1]`.  The arrays of the object hold at least `n`
elements, as the constructor and `setSize` ensure. -/
theorem solve_solves_system [Field T] (s : Tridiagonal T) (a b c f : List T) (n : Nat)
    (hn : 2 ≤ n) (hsize : s.size = n) (hfit : n < 2 ^ 32) (hα : n ≤ s.alpha.length)
    (hβ : n ≤ s.beta.length) (hx : n ≤ s.x.length) (hc0 : c.getD 0 0 ≠ 0)
    (hpiv : ∀ i, 1 ≤ i → i < n →
      a.getD (i - 1) 0 * (solve s a b c f).alpha.getD (i - 1) 0 + c.getD i 0 ≠ 0) :
    n ≤ (solve s a b c f).x.length ∧
    c.getD 0 0 * (solve s a b c f).x.getD 0 0 + b.getD 0 0 * (solve s a b c f).x.getD 1 0
      = f.getD 0 0 ∧
    (∀ i, 0 < i → i < n - 1 →
      a.getD (i - 1) 0 * (solve s a b c f).x.getD (i - 1) 0
        + c.getD i 0 * (solve s a b c f).x.getD i 0
        + b.getD i 0 * (solve s a b c f).x.getD (i + 1) 0 = f.getD i 0) ∧
    a.getD (n - 2) 0 * (solve s a b c f).x.getD (n - 2) 0
      + c.getD (n - 1) 0 * (solve s a b c f).x.getD (n - 1) 0 = f.getD (n - 1) 0 := by
  obtain ⟨hl, hA0, hB0, hAB, hlast, hback⟩ := solve_spec s a b c f n hn hsize hfit hα hβ hx
  refine ⟨by rw [hl]; exact hx, ?_, ?_, ?_⟩
  · rw [hback 0 (by omega), hA0, hB0]
    exact row_first _ _ _ _ hc0
  · intro i h0 h1
    have hp := hpiv i (by omega) (by omega)
    obtain ⟨hA, hB⟩ := hAB i (by omega) (by omega)
    have e1 := hback (i - 1) (by omega)
    rw [Nat.sub_add_cancel (by omega : 1 ≤ i)] at e1
    rw [e1, hback i h1, hA, hB]
    exact row_middle _ _ _ _ _ _ _ hp
  · have hp := hpiv (n - 1) (by omega) (by omega)
    rw [show n - 1 - 1 = n - 2 by omega] at hp
    have e1 := hback (n - 2) (by omega)
    rw [show n - 2 + 1 = n - 1 by omega] at e1
    rw [e1, hlast]
    exact row_last _ _ _ _ _ hp

theorem solve_solves_system_witness :
    (2 : Nat) ≤ 3 ∧ (Tridiagonal.new 3 : Tridiagonal ℚ).size = 3 ∧ 3 < 2 ^ 32 ∧
    (solve (Tridiagonal.new 3 : Tridiagonal ℚ) [1, 1] [1, 1] [2, 2, 2] [3, 4, 3]).x = [1, 1, 1] ∧
    (3 ≤ (solve (Tridiagonal.new 3 : Tridiagonal ℚ) [1, 1] [1, 1] [2, 2, 2] [3, 4, 3]).x.length ∧
    ([2, 2, 2] : List ℚ).getD 0 0
        * (solve (Tridiagonal.new 3 : Tridiagonal ℚ) [1, 1] [1, 1] [2, 2, 2] [3, 4, 3]).x.getD 0 0
      + ([1, 1] : List ℚ).getD 0 0
        * (solve (Tridiagonal.new 3 : Tridiagonal ℚ) [1, 1] [1, 1] [2, 2, 2] [3, 4, 3]).x.getD 1 0
      = ([3, 4, 3] : List ℚ).getD 0 0 ∧
    (∀ i, 0 < i → i < 3 - 1 →
      ([1, 1] : List ℚ).getD (i - 1) 0
          * (solve (Tridiagonal.new 3 : Tridiagonal ℚ) [1, 1] [1, 1] [2, 2, 2] [3, 4, 3]).x.getD
            (i - 1) 0
        + ([2, 2, 2] : List ℚ).getD i 0
          * (solve (Tridiagonal.new 3 : Tridiagonal ℚ) [1, 1] [1, 1] [2, 2, 2] [3, 4, 3]).x.getD
            i 0
        + ([1, 1] : List ℚ).getD i 0
          * (solve (Tridiagonal.new 3 : Tridiagonal ℚ) [1, 1] [1, 1] [2, 2, 2] [3, 4, 3]).x.getD
            (i + 1) 0
        = ([3, 4, 3] : List ℚ).getD i 0) ∧
    ([1, 1] : List ℚ).getD (3 - 2) 0
        * (solve (Tridiagonal.new 3 : Tridiagonal ℚ) [1, 1] [1, 1] [2, 2, 2] [3, 4, 3]).x.getD
          (3 - 2) 0
      + ([2, 2, 2] : List ℚ).getD (3 - 1) 0
        * (solve (Tridiagonal.new 3 : Tridiagonal ℚ) [1, 1] [1, 1] [2, 2, 2] [3, 4, 3]).x.getD
          (3 - 1) 0
      = ([3, 4, 3] : List ℚ).getD (3 - 1) 0) := by
  have hal : (solve (Tridiagonal.new 3 : Tridiagonal ℚ) [1, 1] [1, 1] [2, 2, 2] [3, 4, 3]).alpha
      = [-1 / 2, -2 / 3, 0] := by
    simp [solve, sweepStep, usub, Tridiagonal.new, List.range_succ, List.replicate]
    norm_num
  have hxs : (solve (Tridiagonal.new 3 : Tridiagonal ℚ) [1, 1] [1, 1] [2, 2, 2] [3, 4, 3]).x
      = [1, 1, 1] := by
    simp [solve, sweepStep, backStep, usub, Tridiagonal.new, List.range_succ, List.replicate]
    norm_num
  refine ⟨by decide, rfl, by decide, hxs,
    solve_solves_system (Tridiagonal.new 3) [1, 1] [1, 1] [2, 2, 2] [3, 4, 3] 3 (by decide) rfl
      (by decide) (by simp [Tridiagonal.new]) (by simp [Tridiagonal.new])
      (by simp [Tridiagonal.new]) (by norm_num) ?_⟩
  intro i h1 h2
  rw [hal]
  have : i = 1 ∨ i = 2 := by omega
  rcases this with rfl | rfl <;> norm_num

end Tridiagonal

namespace FFT

variable {R : Type}

/-- C16. For every order `k` (with `count = 2 ^ k` a value of the 32-bit field `count`) and
every buffer `d` of length `2 ^ k`, after the reordering loop of `transform` slot `i`
holds `d[reverseBit(i)]`; a fixed point `reverseBit(i) = i` keeps its content; and exactly
one iteration `j` of the loop passes the guard `reverseBit(j) >= j` on the pair
`{i, reverseBit(i)}`. -/
theorem bitReversalLoop_swaps_once [Zero R] (k : Nat) (hN : 2 ^ k < 2 ^ 32) (d : List R)
    (hd : d.length = 2 ^ k) (i : Nat) (hi : i < 2 ^ k) :
    (bitReversalLoop k (2 ^ k) d)[i]? = some (d.getD (reverseBit k i) 0) ∧
    (reverseBit k i = i → (bitReversalLoop k (2 ^ k) d)[i]? = d[i]?) ∧
    ((Finset.range (2 ^ k)).filter
      (fun j => reverseBit k j ≥ j ∧ (j = i ∨ j = reverseBit k i))).card = 1 := by
  have hk : k ≤ 31 := order_le_of_fits hN
  obtain ⟨hl, hv⟩ := bitReversalLoop_spec k hk d hd
  have hr : ∀ j < 2 ^ k, reverseBit k j = brev k j := fun j hj =>
    reverseBit_eq_brev hk (by omega)
  have h1 : (bitReversalLoop k (2 ^ k) d)[i]? = some (d.getD (reverseBit k i) 0) :=
    getElem?_of_getD (by rw [hl]; exact hi) (hv i hi)
  refine ⟨h1, ?_, ?_⟩
  · intro hfix
    rw [h1, hfix, getElem?_eq_some_getD d (by rw [hd]; exact hi)]
  · exact swap_once (reverseBit k) (2 ^ k)
      (fun j hj => by rw [hr j hj]; exact brev_lt k j)
      (fun j hj => by rw [hr j hj, hr _ (brev_lt k j)]; exact brev_brev k j hj) hi

theorem bitReversalLoop_swaps_once_witness :
    2 ^ 2 < 2 ^ 32 ∧ ([10, 11, 12, 13] : List ℚ).length = 2 ^ 2 ∧ 1 < 2 ^ 2 ∧
    reverseBit 2 1 = 2 ∧
    ((bitReversalLoop 2 (2 ^ 2) ([10, 11, 12, 13] : List ℚ))[1]?
        = some (([10, 11, 12, 13] : List ℚ).getD (reverseBit 2 1) 0) ∧
    (reverseBit 2 1 = 1 →
      (bitReversalLoop 2 (2 ^ 2) ([10, 11, 12, 13] : List ℚ))[1]?
        = ([10, 11, 12, 13] : List ℚ)[1]?) ∧
    ((Finset.range (2 ^ 2)).filter
      (fun j => reverseBit 2 j ≥ j ∧ (j = 1 ∨ j = reverseBit 2 1))).card = 1) :=
  ⟨by decide, rfl, by decide, by decide,
    bitReversalLoop_swaps_once 2 (by decide) [10, 11, 12, 13] rfl 1 (by decide)⟩

/-- C18. In a half-frequency mode, for an engine whose `count = 2 ^ k` with `k ≤ 30` and
`order = k` and whose buffer `b` has `2 · count` slots, `directTransformation` followed by
`inverseTransformation` leaves `b[m]` in the slots `m < count` and `2 · count · b[m]` in
the slots `count ≤ m < 2 · count`. -/
theorem roundtrip_half_frequency (k : Nat) (hk : k ≤ 30) (s : FFT ℂ)
    (hmode : s.type_transform ≠ TYPE_TRANSFORM.NORMAL) (hc : s.count = 2 ^ k)
    (ho : s.order = k) (hd : s.data.length = 2 ^ (k + 1)) (m : Nat) (hm : m < 2 ^ (k + 1)) :
    (inverseTransformation rotateU (directTransformation rotateU s)).data[m]?
      = some (if m < 2 ^ k then s.data.getD m 0 else 2 * 2 ^ k * s.data.getD m 0) := by
  obtain ⟨hl, hv⟩ := roundtrip_half_spec k hk s hmode hc ho hd
  exact getElem?_of_getD (by rw [hl]; exact hm) (hv m hm)

theorem roundtrip_half_frequency_witness :
    (1 : Nat) ≤ 30 ∧
    (⟨[1, 7, 0, -1], 2, 1, TYPE_TRANSFORM.COS_HALF_FREQ⟩ : FFT ℂ).type_transform
      ≠ TYPE_TRANSFORM.NORMAL ∧
    (⟨[1, 7, 0, -1], 2, 1, TYPE_TRANSFORM.COS_HALF_FREQ⟩ : FFT ℂ).data.length = 2 ^ (1 + 1) ∧
    3 < 2 ^ (1 + 1) ∧
    (inverseTransformation rotateU (directTransformation rotateU
        ⟨[1, 7, 0, -1], 2, 1, TYPE_TRANSFORM.COS_HALF_FREQ⟩)).data[3]?
      = some (if 3 < 2 ^ 1 then ([1, 7, 0, -1] : List ℂ).getD 3 0
          else 2 * 2 ^ 1 * ([1, 7, 0, -1] : List ℂ).getD 3 0) :=
  ⟨by decide, by decide, rfl, by decide,
    roundtrip_half_frequency 1 (by decide) ⟨[1, 7, 0, -1], 2, 1, TYPE_TRANSFORM.COS_HALF_FREQ⟩
      (by decide) rfl rfl rfl 3 (by decide)⟩

/-- C19. For `N ≥ 2` (with `2·N` a `uint` value) and a buffer `d` of length `2·N` over a
field in which `2 ≠ 0`, after the COS_HALF_FREQ extension of `transformData` the seam slot
`N` holds the input sample `d[N - 1]`, and the extended buffer is the same for every input
buffer `d'` of length `2·N` that agrees with `d` on the slots `[0, N)`. -/
theorem transformData_cos_seam [Field R] (h2 : (2 : R) ≠ 0) (N order : Nat) (hN : 2 ≤ N)
    (hfit : 2 * N < 2 ^ 32) (d : List R) (hd : d.length = 2 * N) :
    (transformData true ⟨d, N, order, TYPE_TRANSFORM.COS_HALF_FREQ⟩).data[N]?
      = some (d.getD (N - 1) 0) ∧
    ∀ d' : List R, d'.length = 2 * N → (∀ p, p < N → d'.getD p 0 = d.getD p 0) →
      (transformData true ⟨d', N, order, TYPE_TRANSFORM.COS_HALF_FREQ⟩).data
        = (transformData true ⟨d, N, order, TYPE_TRANSFORM.COS_HALF_FREQ⟩).data := by
  have hdata : ∀ e : List R,
      (transformData true ⟨e, N, order, TYPE_TRANSFORM.COS_HALF_FREQ⟩).data = cosExtend N e := by
    intro e
    simp [transformData]
  obtain ⟨hlen, hval⟩ := cosExtend_getD N hN hfit d hd
  rw [hdata]
  constructor
  · apply getElem?_of_getD (by rw [hlen]; omega)
    rw [hval, if_pos rfl]
    field_simp
    ring
  · intro d' hd' hagree
    obtain ⟨hlen', hval'⟩ := cosExtend_getD N hN hfit d' hd'
    rw [hdata]
    apply ext_getD (by rw [hlen', hlen])
    intro p hp
    rw [hval', hval]
    split_ifs with h1 h3
    · rw [hagree (N - 1) (by omega)]
    · exact hagree _ (by omega)
    · rw [hlen'] at hp
      exact hagree p (by omega)

theorem transformData_cos_seam_witness :
    (2 : ℚ) ≠ 0 ∧ (2 : Nat) ≤ 2 ∧ 2 * 2 < 2 ^ 32 ∧ ([1, 2, 3, 4] : List ℚ).length = 2 * 2 ∧
    ((transformData true (⟨[1, 2, 3, 4], 2, 1, TYPE_TRANSFORM.COS_HALF_FREQ⟩ : FFT ℚ)).data[2]?
      = some (([1, 2, 3, 4] : List ℚ).getD (2 - 1) 0) ∧
    ∀ d' : List ℚ, d'.length = 2 * 2 →
      (∀ p, p < 2 → d'.getD p 0 = ([1, 2, 3, 4] : List ℚ).getD p 0) →
      (transformData true ⟨d', 2, 1, TYPE_TRANSFORM.COS_HALF_FREQ⟩).data
        = (transformData true
            (⟨[1, 2, 3, 4], 2, 1, TYPE_TRANSFORM.COS_HALF_FREQ⟩ : FFT ℚ)).data) :=
  ⟨by norm_num, by decide, by decide, rfl,
    transformData_cos_seam (by norm_num) 2 1 (by decide) (by decide) [1, 2, 3, 4] rfl⟩

/-- C20. For every order `k ≤ 31`, with `count = 2 ^ k`, `order = k` and a buffer of
`count` slots: `reverseBit(i) < count` for every `i < count`; for every stage `i < order`,
block `j < count >> (i + 1)` and offset `t < half = 2 ^ i` the indices `j*2*half + t` and
`j*2*half + half + t` (as `uint` values) are below `count`; and `transform` with
Option-returning indexing never takes the out-of-bounds branch: it returns the result of
`transform`. -/
theorem transform_indices_in_bounds [Ring R] (rot : Nat → Nat → R) (type : Int) (k : Nat)
    (hk : k ≤ 31) (s : FFT R) (hc : s.count = 2 ^ k) (ho : s.order = k)
    (hd : s.data.length = 2 ^ k) :
    (∀ i, i < s.count → reverseBit s.order i < s.count) ∧
    (∀ i, i < s.order → ∀ j, j < s.count >>> (i + 1) → ∀ t, t < u32 (1 <<< i) →
      u32 (1 <<< i) = 2 ^ i ∧
      u32 (j * 2 * u32 (1 <<< i) + t) < s.count ∧
      u32 (j * 2 * u32 (1 <<< i) + u32 (1 <<< i) + t) < s.count) ∧
    transformChecked rot type s = some (transform rot type s) := by
  have hN : (2 : Nat) ^ k < 2 ^ 32 := Nat.pow_lt_pow_right (by norm_num) (by omega)
  refine ⟨?_, ?_, transformChecked_eq rot type k hk s hc ho hd⟩
  · intro i hi
    rw [hc] at hi ⊢
    rw [ho, reverseBit_eq_brev hk (by omega)]
    exact brev_lt k i
  · intro i hi j hj t ht
    rw [ho] at hi
    rw [hc] at hj ⊢
    obtain ⟨c, rfl⟩ : ∃ c, k = i + c + 1 := ⟨k - i - 1, by omega⟩
    have hhalf : u32 (1 <<< i) = 2 ^ i := by
      rw [Nat.shiftLeft_eq, one_mul]
      exact u32_of_lt (Nat.pow_lt_pow_right (by norm_num) (by omega))
    have hint : (2 ^ (i + c + 1)) >>> (i + 1) = 2 ^ c := by
      rw [Nat.shiftRight_eq_div_pow, show i + c + 1 = c + (i + 1) by ring, pow_add,
        Nat.mul_div_cancel _ (by positivity)]
    rw [hhalf] at ht ⊢
    rw [hint] at hj
    have hNe : (2 : Nat) ^ (i + c + 1) = 2 ^ c * (2 * 2 ^ i) := by ring
    have hhi : j * (2 * 2 ^ i) + (2 ^ i + t) < 2 ^ (i + c + 1) := by
      rw [hNe]; exact block_lt hj (by omega)
    have e1 : j * 2 * 2 ^ i + t = j * (2 * 2 ^ i) + t := by ring
    have e2 : j * 2 * 2 ^ i + 2 ^ i + t = j * (2 * 2 ^ i) + (2 ^ i + t) := by ring
    refine ⟨rfl, ?_, ?_⟩
    · rw [e1, u32_of_lt (by omega)]; omega
    · rw [e2, u32_of_lt (by omega)]; omega

theorem transform_indices_in_bounds_witness :
    (2 : Nat) ≤ 31 ∧ ([1, 2, 3, 4] : List ℤ).length = 2 ^ 2 ∧
    ((∀ i, i < 4 → reverseBit 2 i < 4) ∧
    (∀ i, i < 2 → ∀ j, j < 4 >>> (i + 1) → ∀ t, t < u32 (1 <<< i) →
      u32 (1 <<< i) = 2 ^ i ∧
      u32 (j * 2 * u32 (1 <<< i) + t) < 4 ∧
      u32 (j * 2 * u32 (1 <<< i) + u32 (1 <<< i) + t) < 4) ∧
    transformChecked (fun _ _ => (1 : ℤ)) 1 ⟨[1, 2, 3, 4], 4, 2, TYPE_TRANSFORM.NORMAL⟩
      = some (transform (fun _ _ => (1 : ℤ)) 1 ⟨[1, 2, 3, 4], 4, 2, TYPE_TRANSFORM.NORMAL⟩)) :=
  ⟨by decide, rfl,
    transform_indices_in_bounds (fun _ _ => (1 : ℤ)) 1 2 (by decide)
      ⟨[1, 2, 3, 4], 4, 2, TYPE_TRANSFORM.NORMAL⟩ rfl rfl rfl⟩

end FFT
